import Mathlib

/-!
# Bingham quaternion filter with normals: embedding and verified properties

A shallow embedding of `src/normal_code/bingham_normal_kf.cpp` and
`src/normal_code/registration_est_bingham_normal.cpp`.

Conventions of the embedding:

* `long double` arithmetic is idealised as exact arithmetic in a linearly
  ordered field `α` (instantiated at `ℚ` for evaluation and at `ℝ` where a
  transcendental function is needed).  Rounding, infinities and NaN are outside
  the model.
* Functions of external libraries that are called by the code (the C math
  library, the Eigen eigen-solver) and helpers of the repository whose
  definition is not part of the two translated files (`sort_indexes`,
  `kd_search_normals`, `get_changes_in_transformation_estimate`, `insert`) are
  fields of an environment record that every translated function receives.
* A point cloud (a `3 × N` matrix) is the list of its columns.
-/

namespace Bingham

/-! ## Data model -/

/-- A 3-vector (`Vector3ld`). -/
abbrev Vec3 (α : Type) := Fin 3 → α

/-- A 4-vector (`Vector4ld`), quaternion components in the order `w, x, y, z`. -/
abbrev Vec4 (α : Type) := Fin 4 → α

/-- A 6-vector: three translation components followed by three Euler angles. -/
abbrev Vec6 (α : Type) := Fin 6 → α

/-- A 3x3 matrix. -/
abbrev Mat3 (α : Type) := Matrix (Fin 3) (Fin 3) α

/-- A 4x4 matrix (`Matrix4ld`). -/
abbrev Mat4 (α : Type) := Matrix (Fin 4) (Fin 4) α

/-- A point cloud (`PointCloud`, a `3 × N` matrix) as the list of its columns. -/
abbrev PointCloud (α : Type) := List (Vec3 α)

/-- A quaternion (`Quaternionld`), built as `Quaternionld(w, x, y, z)`. -/
structure Quaternionld (α : Type) where
  w : α
  x : α
  y : α
  z : α
deriving DecidableEq

/-- Functions of the C math library used by the code. -/
structure Libm (α : Type) where
  sqrt : α → α
  atan2 : α → α → α
  asin : α → α

section Kernel

variable {α : Type} [LinearOrderedField α]

/-- The squared norm of a quaternion (`squaredNorm()`). -/
def Quaternionld.squaredNorm (q : Quaternionld α) : α :=
  q.x * q.x + q.y * q.y + q.z * q.z + q.w * q.w

/-- The coefficient-wise negation of a quaternion, the antipode `-q`. -/
def Quaternionld.neg (q : Quaternionld α) : Quaternionld α :=
  ⟨-q.w, -q.x, -q.y, -q.z⟩

/-- Eigen's `normalized()`: the coefficients divided by the square root of the
squared norm when that is positive, the quaternion itself otherwise. -/
def Quaternionld.normalized (sqrt : α → α) (q : Quaternionld α) : Quaternionld α :=
  let z := q.squaredNorm
  if 0 < z then ⟨q.w / sqrt z, q.x / sqrt z, q.y / sqrt z, q.z / sqrt z⟩ else q

/-- The first argument of the first `atan2` call of `quat2eul`, on the
normalized quaternion. -/
def eul0Num (q : Quaternionld α) : α := 2 * (q.x * q.y + q.w * q.z)

/-- The second argument of the first `atan2` call of `quat2eul`. -/
def eul0Den (q : Quaternionld α) : α := q.w ^ 2 + q.x ^ 2 - q.y ^ 2 - q.z ^ 2

/-- The argument of the `asin` call of `quat2eul`. -/
def asinArg (q : Quaternionld α) : α := -2 * (q.x * q.z - q.w * q.y)

/-- The first argument of the second `atan2` call of `quat2eul`. -/
def eul2Num (q : Quaternionld α) : α := 2 * (q.y * q.z + q.w * q.x)

/-- The second argument of the second `atan2` call of `quat2eul`. -/
def eul2Den (q : Quaternionld α) : α := q.w ^ 2 - q.x ^ 2 - q.y ^ 2 + q.z ^ 2

/-- `quat2eul`: normalizes the quaternion and applies the atan2/asin formulas. -/
def quat2eul (m : Libm α) (q : Quaternionld α) : Vec3 α :=
  let q := q.normalized m.sqrt
  ![m.atan2 (eul0Num q) (eul0Den q), m.asin (asinArg q), m.atan2 (eul2Num q) (eul2Den q)]

/-- `qr_kf_measurementFunction`: the 4-vector measurement of a point pair. -/
def qr_kf_measurementFunction (Xk : Vec4 α) (p1 p2 : Vec3 α) : Vec4 α :=
  ![Xk 1 * (p2 0 - p1 0) + Xk 2 * (p2 1 - p1 1) + Xk 3 * (p2 2 - p1 2),
    Xk 0 * (p1 0 - p2 0) - Xk 2 * (p1 2 + p2 2) + Xk 3 * (p1 1 + p2 1),
    Xk 0 * (p1 1 - p2 1) + Xk 1 * (p1 2 + p2 2) - Xk 3 * (p1 0 + p2 0),
    Xk 0 * (p1 2 - p2 2) - Xk 1 * (p1 1 + p2 1) + Xk 2 * (p1 0 + p2 0)]

/-- `qr_kf_measurementFunctionJacobian`: the 4x4 matrix `H` of a point pair. -/
def qr_kf_measurementFunctionJacobian (p1 p2 : Vec3 α) : Mat4 α :=
  !![0, p2 0 - p1 0, p2 1 - p1 1, p2 2 - p1 2;
     p1 0 - p2 0, 0, -(p1 2 + p2 2), p1 1 + p2 1;
     p1 1 - p2 1, p1 2 + p2 2, 0, -(p1 0 + p2 0);
     p1 2 - p2 2, -(p1 1 + p2 1), p1 0 + p2 0, 0]

end Kernel


/-! ## External collaborators -/

/-- The external functions `bingham_normal_kf` relies on. -/
structure Env (α : Type) where
  /-- The C math library. -/
  libm : Libm α
  /-- Eigen's `EigenSolver` on a 4x4 matrix: the real parts of the eigenvalues
  and the real parts of the eigenvector matrix (eigenvectors are its columns). -/
  eigenSolver : Mat4 α → Vec4 α × Mat4 α
  /-- The helper `sort_indexes(v, ascending)` of the repository, whose definition
  is not in the translated files: the index vector it returns for a 4-vector. -/
  sort_indexes : Vec4 α → Bool → Fin 4 → Fin 4

/-- The result of the correspondence search (`struct KDNormalResult`). -/
structure KDNormalResult (α : Type) where
  pc : PointCloud α
  pr : PointCloud α
  normalc : PointCloud α
  normalr : PointCloud α
  res1 : α
  res2 : α

/-- The result of the convergence delta (`struct DeltaTransform`). -/
structure DeltaTransform (α : Type) where
  dT : α
  dR : α

/-- The external functions the registration loop relies on; `τ` is the type of
the kd-tree (`KDTree`). -/
structure SearchEnv (α τ : Type) where
  /-- The empty tree, `NULL`. -/
  emptyTree : τ
  /-- The tree after `insert(point, index, &tree)`. -/
  insert : Vec3 α → Nat → τ → τ
  /-- The call `kd_search_normals(targets, windowsize, tree, sizePtcldFixed,
  inlierRatio, Xreg, normalMoving, normalFixed)`. -/
  kd_search_normals : PointCloud α → Nat → τ → Nat → Nat → Vec6 α →
    PointCloud α → PointCloud α → KDNormalResult α
  /-- The call `get_changes_in_transformation_estimate(Xreg, Xregprev)`. -/
  get_changes_in_transformation_estimate : Vec6 α → Vec6 α → DeltaTransform α

/-! ## The filter `bingham_normal_kf` -/

section Filter

variable {α : Type} [LinearOrderedField α]

/-- The result of one filter update (`struct BinghamNormalKFResult`). -/
structure BinghamNormalKFResult (α : Type) where
  Xk : Vec4 α
  Xreg : Vec6 α
  Mk : Mat4 α
  Zk : Mat4 α

/-- The diagnostics written to `cerr` by the dimension checks that open
`bingham_normal_kf`.  The first three checks compare fixed sizes of the types
and cannot fire; the fourth compares the column counts as the source does. -/
def bingham_normal_kf_diagnostics (p1c p1r p2c _p2r : PointCloud α) : List String :=
  if p1c.length ≠ p1r.length ∨ p1c.length ≠ p2c.length ∨ p1c.length ≠ p2c.length then
    ["pxx are not equal in size\n"]
  else []

/-- The difference of two point clouds, column by column (`p1c - p2c`).  Eigen
requires equal sizes; on unequal lists the common prefix is used. -/
def cloudSub (a b : PointCloud α) : PointCloud α :=
  List.zipWith (fun u v => u - v) a b

/-- The sixteen coefficients of a 4x4 matrix in storage (column-major) order. -/
def coeffs (A : Mat4 α) : List α :=
  ([0, 1, 2, 3] : List (Fin 4)).flatMap fun j =>
    ([0, 1, 2, 3] : List (Fin 4)).map fun i => A i j

/-- Eigen's `minCoeff()`: the least of all sixteen coefficients. -/
def minCoeff (A : Mat4 α) : α :=
  (coeffs A).foldl min (A 0 0)

/-- Eigen's `inverse()` of a 4x4 matrix: the adjugate (cofactor) formula. -/
def inverse (A : Mat4 α) : Mat4 α :=
  A.det⁻¹ • A.adjugate

/-- The constant `pow(10, -100)`. -/
def tiny : α := ((10 : α) ^ 100)⁻¹

/-- The constant `pow(10, 100)`. -/
def huge : α := (10 : α) ^ 100

/-- The matrix `temp = Mk * (Zk + c*I) * Mk^T` with `c = Zk.minCoeff()`. -/
def temp (Mk Zk : Mat4 α) : Mat4 α :=
  let c := minCoeff Zk
  Mk * (Zk + c • (1 : Mat4 α)) * Mk.transpose

/-- The matrix `tempInv`: the inverse of `temp`, computed on the rescaled matrix
when `c*c < 10^-100`. -/
def tempInv (Mk Zk : Mat4 α) : Mat4 α :=
  let c := minCoeff Zk
  if c * c < tiny then (huge : α) • inverse ((tiny : α)⁻¹ • temp Mk Zk)
  else inverse (temp Mk Zk)

/-- The matrix `Pk = -0.5 * tempInv`. -/
def Pk (Mk Zk : Mat4 α) : Mat4 α :=
  (-(1 / 2 : α)) • tempInv Mk Zk

/-- The matrix `RTmp = Rmag * (trace(Nk) * I - Nk)` with `Nk = Xk Xk^T + Pk`. -/
def RTmp (Xk : Vec4 α) (Mk Zk : Mat4 α) (Rmag : α) : Mat4 α :=
  let Pk := Pk Mk Zk
  let Nk := Matrix.vecMulVec Xk Xk + Pk
  Rmag • (Nk.trace • (1 : Mat4 α) - Nk)

/-- The regularization of the eigenvalues: an entry `<= 0.0001` becomes `1`. -/
def regularize (s : Vec4 α) : Vec4 α :=
  fun i => if s i ≤ 1 / 10000 then 1 else s i

/-- The matrix `RInvTmp = U * diag(s^-1) * U^T` from the eigen-decomposition
`(s, U)` of `RTmp`, with `s` regularized.  (The loop over `U.col(i).norm()`
computes norms and discards them; it changes nothing and is left out.) -/
def RInvTmp (env : Env α) (Xk : Vec4 α) (Mk Zk : Mat4 α) (Rmag : α) : Mat4 α :=
  let es := env.eigenSolver (RTmp Xk Mk Zk Rmag)
  let s := regularize es.1
  let U := es.2
  U * Matrix.diagonal (fun i => (s i)⁻¹) * U.transpose

/-- The accumulation loop shared by `D1` and `D2`: starting from the zero
matrix, for each column pair add `G^T * W * G` with `G` the Jacobian of the
pair. -/
def accumulate (W : Mat4 α) (pc pr : PointCloud α) : Mat4 α :=
  (List.zip pc pr).foldl
    (fun D p =>
      D + (qr_kf_measurementFunctionJacobian p.1 p.2).transpose * W *
        qr_kf_measurementFunctionJacobian p.1 p.2)
    0

/-- The matrix `D1`, accumulated over `pc = p1c - p2c` and `pr = p1r - p2r`. -/
def D1 (env : Env α) (Xk : Vec4 α) (Mk Zk : Mat4 α) (Rmag : α)
    (p1c p1r p2c p2r : PointCloud α) : Mat4 α :=
  accumulate (RInvTmp env Xk Mk Zk Rmag) (cloudSub p1c p2c) (cloudSub p1r p2r)

/-- The matrix `QInvTmp = RInvTmp * Rmag / Qmag`. -/
def QInvTmp (env : Env α) (Xk : Vec4 α) (Mk Zk : Mat4 α) (Rmag Qmag : α) : Mat4 α :=
  fun i j => RInvTmp env Xk Mk Zk Rmag i j * Rmag / Qmag

/-- The matrix `D2`, accumulated over the normal correspondences. -/
def D2 (env : Env α) (Xk : Vec4 α) (Mk Zk : Mat4 α) (Rmag Qmag : α)
    (normalc normalr : PointCloud α) : Mat4 α :=
  accumulate (QInvTmp env Xk Mk Zk Rmag Qmag) normalc normalr

/-- The matrix `DStar = -0.5*D1 - 0.5*D2 + Mk*Zk*Mk^T`. -/
def DStar (env : Env α) (Xk : Vec4 α) (Mk Zk : Mat4 α) (Rmag Qmag : α)
    (p1c p1r p2c p2r normalc normalr : PointCloud α) : Mat4 α :=
  (-(1 / 2 : α)) • D1 env Xk Mk Zk Rmag p1c p1r p2c p2r
    - (1 / 2 : α) • D2 env Xk Mk Zk Rmag Qmag normalc normalr
    + Mk * Zk * Mk.transpose

/-- The vector `ZTmpSorted`: entries 3, 2, 1 are written in that order as
`ZTmp(indx[i]) - ZTmp(indx[0])`, then entry 0 is set to 0. -/
def ZTmpSorted (ZTmp : Vec4 α) (indx : Fin 4 → Fin 4) : Vec4 α :=
  let v := ([3, 2, 1] : List (Fin 4)).foldl
    (fun v i => Function.update v i (ZTmp (indx i) - ZTmp (indx 0))) (0 : Vec4 α)
  Function.update v 0 0

/-- The columns of `Mk` after the reordering: column 0 is overwritten with
column `indx[0]` of `MTmp`, then columns 1, 2, 3 with columns `indx[i]`. -/
def reorderColumns (Mk MTmp : Mat4 α) (indx : Fin 4 → Fin 4) : Mat4 α :=
  let Mk0 := Matrix.updateColumn Mk 0 (fun r => MTmp r (indx 0))
  ([1, 2, 3] : List (Fin 4)).foldl
    (fun M i => Matrix.updateColumn M i (fun r => MTmp r (indx i))) Mk0

/-- The mean of row `i` of a point cloud (`row(i).mean()`). -/
def rowMean (p : PointCloud α) (i : Fin 3) : α :=
  (p.map fun c => c i).sum / (p.length : α)

/-- Eigen's `toRotationMatrix()` of a quaternion. -/
def toRotationMatrix (q : Quaternionld α) : Mat3 α :=
  let tx := 2 * q.x
  let ty := 2 * q.y
  let tz := 2 * q.z
  let twx := tx * q.w
  let twy := ty * q.w
  let twz := tz * q.w
  let txx := tx * q.x
  let txy := ty * q.x
  let txz := tz * q.x
  let tyy := ty * q.y
  let tyz := tz * q.y
  let tzz := tz * q.z
  !![1 - (tyy + tzz), txy - twz, txz + twy;
     txy + twz, 1 - (txx + tzz), tyz - twx;
     txz - twy, tyz + twx, 1 - (txx + tyy)]

/-- The pose `Xreg` extracted from the new mode `Xk`: the translation
`centroid - R * centroidRotated` followed by the Euler angles of `Xk`. -/
def poseOf (m : Libm α) (Xk : Vec4 α) (p1c p1r p2c p2r : PointCloud α) : Vec6 α :=
  let centroid : Vec3 α := fun i => (rowMean p1c i + rowMean p2c i) / 2
  let centroidRotated : Vec3 α := fun i => (rowMean p1r i + rowMean p2r i) / 2
  let XkQuat := (Quaternionld.mk (Xk 0) (Xk 1) (Xk 2) (Xk 3)).normalized m.sqrt
  let centroidRotated := (toRotationMatrix XkQuat).mulVec centroidRotated
  let eulerRotation := quat2eul m XkQuat
  let centroidDifference := centroid - centroidRotated
  ![centroidDifference 0, centroidDifference 1, centroidDifference 2,
    eulerRotation 0, eulerRotation 1, eulerRotation 2]

/-- The vector `ZTmp`: the eigenvalues the solver returns for `DStar`. -/
def ZTmp (env : Env α) (Xk : Vec4 α) (Mk Zk : Mat4 α) (Rmag Qmag : α)
    (p1c p1r p2c p2r normalc normalr : PointCloud α) : Vec4 α :=
  (env.eigenSolver (DStar env Xk Mk Zk Rmag Qmag p1c p1r p2c p2r normalc normalr)).1

/-- The matrix `MTmp`: the eigenvectors the solver returns for `DStar`. -/
def MTmp (env : Env α) (Xk : Vec4 α) (Mk Zk : Mat4 α) (Rmag Qmag : α)
    (p1c p1r p2c p2r normalc normalr : PointCloud α) : Mat4 α :=
  (env.eigenSolver (DStar env Xk Mk Zk Rmag Qmag p1c p1r p2c p2r normalc normalr)).2

/-- The index vector `indx = sort_indexes(ZTmpSTD, false)`. -/
def indx (env : Env α) (Xk : Vec4 α) (Mk Zk : Mat4 α) (Rmag Qmag : α)
    (p1c p1r p2c p2r normalc normalr : PointCloud α) : Fin 4 → Fin 4 :=
  env.sort_indexes (ZTmp env Xk Mk Zk Rmag Qmag p1c p1r p2c p2r normalc normalr) false

/-- `bingham_normal_kf`: one update of the Bingham filter, the four fields of the
returned structure.  (The dimension checks only write to `cerr`, see
`bingham_normal_kf_diagnostics`; the loop over `MTmp.col(i).norm()` discards
its results.) -/
def bingham_normal_kf (env : Env α) (Xk : Vec4 α) (Mk Zk : Mat4 α) (Rmag Qmag : α)
    (p1c p1r p2c p2r normalc normalr : PointCloud α) : BinghamNormalKFResult α :=
  let ZTmp := ZTmp env Xk Mk Zk Rmag Qmag p1c p1r p2c p2r normalc normalr
  let MTmp := MTmp env Xk Mk Zk Rmag Qmag p1c p1r p2c p2r normalc normalr
  let indx := indx env Xk Mk Zk Rmag Qmag p1c p1r p2c p2r normalc normalr
  let Zk := Matrix.diagonal (ZTmpSorted ZTmp indx)
  let Mk := reorderColumns Mk MTmp indx
  let Xk : Vec4 α := fun r => Mk r 0
  { Xk := Xk, Xreg := poseOf env.libm Xk p1c p1r p2c p2r, Mk := Mk, Zk := Zk }

/-- Modelled from the spec: the helper `sort_indexes(v, false)`, whose source is
not among the translated files.  The spec (4.2, step 15) has it sort the
indices in descending order of the values, stably (first occurrence first among
equal values); this is the insertion sort of the indices 0..3 doing that. -/
def sortIndexesDescending (v : Vec4 α) : Fin 4 → Fin 4 :=
  fun k => (([0, 1, 2, 3] : List (Fin 4)).insertionSort fun i j => v j ≤ v i).getD k 0

end Filter

/-! ## The registration loop `registration_est_bingham_normal` -/

section Registration

variable {α τ σ : Type} [LinearOrderedField α]

/-- The constant `DIMENSION`. -/
def DIMENSION : Nat := 3

/-- The constant `INLIER_RATIO`. -/
def INLIER_RATIO : Nat := 1

/-- The constant `MAX_ITERATIONS`. -/
def MAX_ITERATIONS : Nat := 100

/-- The constant `MIN_ITERATIONS`. -/
def MIN_ITERATIONS : Nat := 20

/-- The local constant `windowsize`. -/
def windowsize : Nat := 20

/-- The first entry of `tolerance`, the bound on `dT`. -/
def toleranceT : α := 1 / 10000

/-- The second entry of `tolerance`, the bound on `dR`. -/
def toleranceR : α := 9 / 1000

/-- The value `Rmag = .04 + pow(res1 / 6, 2)`. -/
def RmagOf (res1 : α) : α := 4 / 100 + (res1 / 6) ^ 2

/-- The value `Qmag = .04 + pow(res2 / 6, 2)`. -/
def QmagOf (res2 : α) : α := 4 / 100 + (res2 / 6) ^ 2

/-- The returned structure (`struct RegistrationResult`); a field is `none` as
long as the function has not assigned it. -/
structure RegistrationResult (α : Type) where
  Xreg : Option (Vec6 α)
  Xregsave : Option (List (Vec6 α))

/-- The variables of the odd/even split loop. -/
structure SplitState (α : Type) where
  p1c : PointCloud α
  p2c : PointCloud α
  p1r : PointCloud α
  p2r : PointCloud α
  p1Count : Nat
  p2Count : Nat

/-- One pass of the split loop for the 1-based index `n`; `call_error` ends the
run with its message. -/
def splitStep (oddEntryNum evenEntryNum : Nat) (pc pr : PointCloud α)
    (s : SplitState α) (n : Nat) : Except String (SplitState α) :=
  let nOffset := n - 1
  if n % 2 ≠ 0 then
    if s.p1Count ≥ oddEntryNum then .error "Incorrect number of odd entry."
    else
      .ok { s with
        p1c := s.p1c.set s.p1Count (pc.getD nOffset 0)
        p1r := s.p1r.set s.p1Count (pr.getD nOffset 0)
        p1Count := s.p1Count + 1 }
  else
    if s.p2Count ≥ evenEntryNum then .error "Incorrect number of even entry."
    else
      .ok { s with
        p2c := s.p2c.set s.p2Count (pc.getD nOffset 0)
        p2r := s.p2r.set s.p2Count (pr.getD nOffset 0)
        p2Count := s.p2Count + 1 }

/-- The odd/even split of the first `truncSize` correspondences: the loop over
`n = 1 .. truncSize - truncSize % 2`. -/
def splitCorrespondences (truncSize : Nat) (pc pr : PointCloud α) :
    Except String (SplitState α) :=
  let oddEntryNum := truncSize / 2
  let evenEntryNum := oddEntryNum
  (List.range' 1 (truncSize - truncSize % 2)).foldlM
    (splitStep oddEntryNum evenEntryNum pc pr)
    { p1c := List.replicate oddEntryNum 0
      p2c := List.replicate evenEntryNum 0
      p1r := List.replicate oddEntryNum 0
      p2r := List.replicate evenEntryNum 0
      p1Count := 0
      p2Count := 0 }

/-- The variables of the split loop after the passes `n = 1 .. j`, in closed
form: the first `(j + 1) / 2` entries of `p1c`, `p1r` hold the columns
`0, 2, 4, ...` and the first `j / 2` entries of `p2c`, `p2r` the columns
`1, 3, 5, ...`; the other entries are still the initial zeros. -/
def splitStateAfter (truncSize : Nat) (pc pr : PointCloud α) (j : Nat) : SplitState α :=
  { p1c := (List.range (truncSize / 2)).map fun k =>
      if k < (j + 1) / 2 then pc.getD (2 * k) 0 else 0
    p2c := (List.range (truncSize / 2)).map fun k =>
      if k < j / 2 then pc.getD (2 * k + 1) 0 else 0
    p1r := (List.range (truncSize / 2)).map fun k =>
      if k < (j + 1) / 2 then pr.getD (2 * k) 0 else 0
    p2r := (List.range (truncSize / 2)).map fun k =>
      if k < j / 2 then pr.getD (2 * k + 1) 0 else 0
    p1Count := (j + 1) / 2
    p2Count := j / 2 }

/-- The variables that live across iterations of the registration loop, with
two observations added: whether "CONVERGED" has been written to `cout`, and the
number of loop bodies executed so far. -/
structure LoopState (α : Type) where
  Xk : Vec4 α
  Mk : Mat4 α
  Zk : Mat4 α
  Xreg : Vec6 α
  Xregsave : List (Vec6 α)
  result : RegistrationResult α
  converged : Bool
  iterations : Nat

/-- The convergence test of iteration `i`. -/
def convergenceTest (i : Nat) (d : DeltaTransform α) : Bool :=
  decide (i ≥ MIN_ITERATIONS ∧ d.dT ≤ toleranceT ∧ d.dR ≤ toleranceR)

/-- The body of the registration loop for the 1-based iteration `i`: the new
state and whether the loop is left by `break`.  (The window of normals
`normalTargets` is filled but never read, and is left out.) -/
def iteration (env : Env α) (senv : SearchEnv α τ)
    (ptcldMoving normalMoving normalFixed : PointCloud α) (cloudTree : τ)
    (sizePtcldFixed : Nat) (i : Nat) (s : LoopState α) :
    Except String (LoopState α × Bool) :=
  let iOffset := i - 1
  let targets := (ptcldMoving.drop (windowsize * iOffset)).take windowsize
  let searchResult := senv.kd_search_normals targets windowsize cloudTree
    sizePtcldFixed INLIER_RATIO s.Xreg normalMoving normalFixed
  let pc := searchResult.pc
  let pr := searchResult.pr
  let truncSize := windowsize * INLIER_RATIO
  let Rmag := RmagOf searchResult.res1
  let Qmag := QmagOf searchResult.res2
  match splitCorrespondences truncSize pc pr with
  | .error e => .error e
  | .ok sp =>
    let QFResult := bingham_normal_kf env s.Xk s.Mk s.Zk Rmag Qmag sp.p1c sp.p1r
      sp.p2c sp.p2r searchResult.normalc searchResult.normalr
    let Xregsave := s.Xregsave.set i QFResult.Xreg
    let convergenceResult := senv.get_changes_in_transformation_estimate
      QFResult.Xreg (Xregsave.getD (i - 1) 0)
    let stop := convergenceTest i convergenceResult
    .ok ({ Xk := QFResult.Xk
           Mk := QFResult.Mk
           Zk := QFResult.Zk
           Xreg := QFResult.Xreg
           Xregsave := Xregsave
           result := { Xreg := some QFResult.Xreg, Xregsave := some Xregsave }
           converged := stop
           iterations := s.iterations + 1 }, stop)

/-- The loop `for (i = first; i <= bound; i++) body`, where `remaining` is
`bound + 1 - i`, the number of values of `i` that still satisfy the loop
condition; the body may end the run with an error or leave the loop. -/
def forLoop (body : Nat → σ → Except String (σ × Bool)) :
    (remaining : Nat) → (i : Nat) → σ → Except String σ
  | 0, _, s => .ok s
  | k + 1, i, s =>
    match body i s with
    | .error e => .error e
    | .ok (s', stop) => if stop then .ok s' else forLoop body k (i + 1) s'

/-- The initial `Zk`: zero, with `-1 * 10^-300` at the diagonal entries 1..3. -/
def initialZk : Mat4 α :=
  Matrix.diagonal ![0, -1 * ((10 : α) ^ 300)⁻¹, -1 * ((10 : α) ^ 300)⁻¹,
    -1 * ((10 : α) ^ 300)⁻¹]

/-- The state in which the loop is entered. -/
def initialState : LoopState α :=
  { Xk := ![1, 0, 0, 0]
    Mk := 1
    Zk := initialZk
    Xreg := 0
    Xregsave := List.replicate (MAX_ITERATIONS + 1) 0
    result := { Xreg := none, Xregsave := none }
    converged := false
    iterations := 0 }

/-- The kd-tree built from the columns of `ptcldFixed`, inserted in order with
their indices. -/
def buildTree (senv : SearchEnv α τ) (ptcldFixed : PointCloud α) : τ :=
  (List.zip (List.range ptcldFixed.length) ptcldFixed).foldl
    (fun t p => senv.insert p.2 p.1 t) senv.emptyTree

/-- The number of values of `i` the loop header admits:
`min(MAX_ITERATIONS, sizePtcldMoving / windowsize)`. -/
def iterationBound (ptcldMoving : PointCloud α) : Nat :=
  min MAX_ITERATIONS (ptcldMoving.length / windowsize)

/-- The registration loop, from initialization to the state in which the loop
is left. -/
def registrationLoop (env : Env α) (senv : SearchEnv α τ)
    (ptcldMoving ptcldFixed normalMoving normalFixed : PointCloud α) :
    Except String (LoopState α) :=
  forLoop
    (iteration env senv ptcldMoving normalMoving normalFixed (buildTree senv ptcldFixed)
      ptcldFixed.length)
    (iterationBound ptcldMoving) 1 initialState

/-- `registration_est_bingham_normal`: the structure `result` in the final
state.  (The entry check on the row counts cannot fire: every column of a point
cloud has `DIMENSION` entries.) -/
def registration_est_bingham_normal (env : Env α) (senv : SearchEnv α τ)
    (ptcldMoving ptcldFixed normalMoving normalFixed : PointCloud α) :
    Except String (RegistrationResult α) :=
  match registrationLoop env senv ptcldMoving ptcldFixed normalMoving normalFixed with
  | .error e => .error e
  | .ok s => .ok s.result

/-- The state after `k` loop bodies when no `break` is taken: the trajectory
the loop follows until it stops. -/
def stateAfter (env : Env α) (senv : SearchEnv α τ)
    (ptcldMoving ptcldFixed normalMoving normalFixed : PointCloud α) : Nat → LoopState α
  | 0 => initialState
  | k + 1 =>
    let s := stateAfter env senv ptcldMoving ptcldFixed normalMoving normalFixed k
    match iteration env senv ptcldMoving normalMoving normalFixed
        (buildTree senv ptcldFixed) ptcldFixed.length (k + 1) s with
    | .error _ => s
    | .ok r => r.1

/-- The search result of iteration `i` along the trajectory: the call of
`kd_search_normals` that iteration `i` makes from the state after `i - 1`
iterations. -/
def searchAt (env : Env α) (senv : SearchEnv α τ)
    (ptcldMoving ptcldFixed normalMoving normalFixed : PointCloud α) (i : Nat) :
    KDNormalResult α :=
  senv.kd_search_normals ((ptcldMoving.drop (windowsize * (i - 1))).take windowsize)
    windowsize (buildTree senv ptcldFixed) ptcldFixed.length INLIER_RATIO
    (stateAfter env senv ptcldMoving ptcldFixed normalMoving normalFixed (i - 1)).Xreg
    normalMoving normalFixed

/-- The `i`-th call of the filter along the trajectory: the call of
`bingham_normal_kf` that iteration `i` makes from the state after `i - 1`
iterations, on the split of that iteration's search result. -/
def filterAt (env : Env α) (senv : SearchEnv α τ)
    (ptcldMoving ptcldFixed normalMoving normalFixed : PointCloud α) (i : Nat) :
    Except String (BinghamNormalKFResult α) :=
  let s := stateAfter env senv ptcldMoving ptcldFixed normalMoving normalFixed (i - 1)
  let sr := searchAt env senv ptcldMoving ptcldFixed normalMoving normalFixed i
  match splitCorrespondences (windowsize * INLIER_RATIO) sr.pc sr.pr with
  | .error e => .error e
  | .ok sp =>
    .ok (bingham_normal_kf env s.Xk s.Mk s.Zk (RmagOf sr.res1) (QmagOf sr.res2)
      sp.p1c sp.p1r sp.p2c sp.p2r sr.normalc sr.normalr)

/-- The delta computed by iteration `i`: between the new `Xreg` and column
`i - 1` of `Xregsave`, the pose stored for iteration `i - 1`. -/
def deltaAt (env : Env α) (senv : SearchEnv α τ)
    (ptcldMoving ptcldFixed normalMoving normalFixed : PointCloud α) (i : Nat) :
    DeltaTransform α :=
  senv.get_changes_in_transformation_estimate
    (stateAfter env senv ptcldMoving ptcldFixed normalMoving normalFixed i).Xreg
    ((stateAfter env senv ptcldMoving ptcldFixed normalMoving normalFixed i).Xregsave.getD
      (i - 1) 0)

/-- The convergence condition at iteration `i`: the iteration count has reached
`MIN_ITERATIONS` and both deltas are within tolerance. -/
def PassesAt (env : Env α) (senv : SearchEnv α τ)
    (ptcldMoving ptcldFixed normalMoving normalFixed : PointCloud α) (i : Nat) : Prop :=
  MIN_ITERATIONS ≤ i ∧
    (deltaAt env senv ptcldMoving ptcldFixed normalMoving normalFixed i).dT ≤ toleranceT ∧
    (deltaAt env senv ptcldMoving ptcldFixed normalMoving normalFixed i).dR ≤ toleranceR

instance (env : Env α) (senv : SearchEnv α τ)
    (ptcldMoving ptcldFixed normalMoving normalFixed : PointCloud α) (i : Nat) :
    Decidable (PassesAt env senv ptcldMoving ptcldFixed normalMoving normalFixed i) := by
  unfold PassesAt
  infer_instance

end Registration

/-! ## Predicates used in the statements -/

section Predicates

variable {α : Type} [LinearOrderedField α]

/-- The unit quaternion `(1, 0, 0, 0)`, the identity rotation. -/
def e0 : Vec4 α := ![1, 0, 0, 0]

/-- The index vector `idx` is a descending-order index permutation of `v`: a
permutation of the four indices along which the values of `v` do not increase. -/
def IsDescendingOrder (v : Vec4 α) (idx : Fin 4 → Fin 4) : Prop :=
  Function.Bijective idx ∧ ∀ i j, i ≤ j → v (idx j) ≤ v (idx i)

/-- The quadratic form of a matrix is nonnegative everywhere. -/
def QuadNonneg (W : Mat4 α) : Prop :=
  ∀ y : Vec4 α, 0 ≤ Matrix.dotProduct y (W.mulVec y)

/-- The pair `es = (Z, M)` is an eigen-decomposition of `A` as Eigen's solver
returns one for a diagonalizable matrix: column `k` of `M` is an eigenvector of
`A` for the eigenvalue `Z k`, every column has norm 1, and the columns are
linearly independent. -/
def IsEigenDecomposition (A : Mat4 α) (es : Vec4 α × Mat4 α) : Prop :=
  A * es.2 = es.2 * Matrix.diagonal es.1 ∧
    (∀ k, ∑ i, es.2 i k ^ 2 = 1) ∧ es.2.det ≠ 0

/-- The sum that the spec (4.2, step 10) describes for `D1`: over the column
pairs of the first point batch `(p1c, p1r)` themselves, the matrices
`J^T * RInvTmp * J` with `J` the Jacobian of the pair. -/
def D1_spec (env : Env α) (Xk : Vec4 α) (Mk Zk : Mat4 α) (Rmag : α)
    (p1c p1r : PointCloud α) : Mat4 α :=
  ((List.zip p1c p1r).map fun p =>
    (qr_kf_measurementFunctionJacobian p.1 p.2).transpose * RInvTmp env Xk Mk Zk Rmag *
      qr_kf_measurementFunctionJacobian p.1 p.2).sum

/-- A point cloud with the vector `a` added to every column. -/
def translateCloud (a : Vec3 α) (p : PointCloud α) : PointCloud α :=
  p.map fun c => c + a

/-- The values of the math library that the pose of the identity rotation
needs: `sqrt(1) = 1`, `atan2(0, 1) = 0` and `asin(0) = 0`. -/
def Libm.ExactAtIdentity (m : Libm α) : Prop :=
  m.sqrt 1 = 1 ∧ m.atan2 0 1 = 0 ∧ m.asin 0 = 0

end Predicates

/-! ## Concrete collaborators for evaluation -/

/-- A math library on `ℚ` that is exact at the identity rotation. -/
def sampleLibm : Libm ℚ :=
  { sqrt := fun x => x, atan2 := fun y _ => y, asin := fun x => x }

/-- An environment on `ℚ`: the solver reads the diagonal of its argument and
returns the identity as eigenvector matrix (exact on diagonal matrices), the
sort is the one modelled from the spec. -/
def sampleEnv : Env ℚ :=
  { libm := sampleLibm
    eigenSolver := fun A => (fun i => A i i, 1)
    sort_indexes := fun v _ => sortIndexesDescending v }

/-- An environment on `ℚ` whose solver returns fixed eigenvalues `-3, 0, -1, -2`
and a fixed eigenvector matrix. -/
def fixedEnv : Env ℚ :=
  { libm := sampleLibm
    eigenSolver := fun _ => (![-3, 0, -1, -2], !![0, 1, 0, 0; 1, 0, 0, 0; 0, 0, 1, 0; 0, 0, 0, 1])
    sort_indexes := fun v _ => sortIndexesDescending v }

/-- A search on `ℚ` that returns no correspondences and the residuals 6 and 12,
and whose delta is always 1 in both components: it never converges. -/
def neverConvergingSearch : SearchEnv ℚ Unit :=
  { emptyTree := ()
    insert := fun _ _ t => t
    kd_search_normals := fun _ _ _ _ _ _ _ _ =>
      { pc := [], pr := [], normalc := [], normalr := [], res1 := 6, res2 := 12 }
    get_changes_in_transformation_estimate := fun _ _ => { dT := 1, dR := 1 } }

/-- A search on `ℚ` that returns no correspondences and the residuals 6 and 12,
and whose delta is always 0 in both components. -/
def stationarySearch : SearchEnv ℚ Unit :=
  { emptyTree := ()
    insert := fun _ _ t => t
    kd_search_normals := fun _ _ _ _ _ _ _ _ =>
      { pc := [], pr := [], normalc := [], normalr := [], res1 := 6, res2 := 12 }
    get_changes_in_transformation_estimate := fun _ _ => { dT := 0, dR := 0 } }

/-! ## Theorems -/

set_option linter.unusedSectionVars false

open Matrix

section KernelTheorems

variable {α : Type} [LinearOrderedField α]

theorem Quaternionld.squaredNorm_neg (q : Quaternionld α) :
    q.neg.squaredNorm = q.squaredNorm := by
  simp only [Quaternionld.squaredNorm, Quaternionld.neg]
  ring

theorem Quaternionld.normalized_neg (sqrt : α → α) (q : Quaternionld α) :
    q.neg.normalized sqrt = (q.normalized sqrt).neg := by
  unfold Quaternionld.normalized
  simp only [Quaternionld.squaredNorm_neg]
  split_ifs
  · simp [Quaternionld.neg, neg_div]
  · rfl

/-- Claim C4. Antipodal symmetry of `quat2eul`: for every nonzero quaternion `q`,
`quat2eul(-q) = quat2eul(q)` in all three Euler components, whatever the math
library computes, because each argument handed to `atan2` and `asin` (computed on
the normalized quaternion) is the same for `q` and `-q`. -/
theorem quat2eul_antipodal (m : Libm α) (q : Quaternionld α)
    (hq : q ≠ ⟨0, 0, 0, 0⟩) :
    quat2eul m q.neg = quat2eul m q ∧
      eul0Num (q.neg.normalized m.sqrt) = eul0Num (q.normalized m.sqrt) ∧
      eul0Den (q.neg.normalized m.sqrt) = eul0Den (q.normalized m.sqrt) ∧
      asinArg (q.neg.normalized m.sqrt) = asinArg (q.normalized m.sqrt) ∧
      eul2Num (q.neg.normalized m.sqrt) = eul2Num (q.normalized m.sqrt) ∧
      eul2Den (q.neg.normalized m.sqrt) = eul2Den (q.normalized m.sqrt) := by
  have _ := hq
  have h0 : ∀ r : Quaternionld α, eul0Num r.neg = eul0Num r := fun r => by
    simp only [eul0Num, Quaternionld.neg]; ring
  have h1 : ∀ r : Quaternionld α, eul0Den r.neg = eul0Den r := fun r => by
    simp only [eul0Den, Quaternionld.neg]; ring
  have h2 : ∀ r : Quaternionld α, asinArg r.neg = asinArg r := fun r => by
    simp only [asinArg, Quaternionld.neg]; ring
  have h3 : ∀ r : Quaternionld α, eul2Num r.neg = eul2Num r := fun r => by
    simp only [eul2Num, Quaternionld.neg]; ring
  have h4 : ∀ r : Quaternionld α, eul2Den r.neg = eul2Den r := fun r => by
    simp only [eul2Den, Quaternionld.neg]; ring
  refine ⟨?_, ?_, ?_, ?_, ?_, ?_⟩
  · simp only [quat2eul, Quaternionld.normalized_neg, h0, h1, h2, h3, h4]
  all_goals simp only [Quaternionld.normalized_neg, h0, h1, h2, h3, h4]

theorem quat2eul_antipodal_witness :
    (⟨1, 2, 3, 4⟩ : Quaternionld ℚ) ≠ ⟨0, 0, 0, 0⟩ ∧
      quat2eul sampleLibm (Quaternionld.neg ⟨1, 2, 3, 4⟩) =
        quat2eul sampleLibm ⟨1, 2, 3, 4⟩ :=
  ⟨by simp, (quat2eul_antipodal sampleLibm ⟨1, 2, 3, 4⟩ (by simp)).1⟩

/-- Claim C6. The measurement is linear in the state with the Jacobian as its
coefficient matrix: for every state `Xk` and all points `p1`, `p2`,
`qr_kf_measurementFunction(Xk, p1, p2) =
qr_kf_measurementFunctionJacobian(p1, p2) * Xk`. -/
theorem measurement_eq_jacobian_mulVec (Xk : Vec4 α) (p1 p2 : Vec3 α) :
    qr_kf_measurementFunction Xk p1 p2 =
      (qr_kf_measurementFunctionJacobian p1 p2).mulVec Xk := by
  funext i
  fin_cases i <;>
    simp [qr_kf_measurementFunction, qr_kf_measurementFunctionJacobian, Matrix.mulVec,
      Matrix.dotProduct, Fin.sum_univ_four] <;> ring

/-- Claim C7. For all points `p1`, `p2` the Jacobian `H` has zero diagonal and is
skew-symmetric, `H^T = -H`; consequently the measurement is orthogonal to the
state: `Xk . qr_kf_measurementFunction(Xk, p1, p2) = 0` for every `Xk`. -/
theorem jacobian_skew (Xk : Vec4 α) (p1 p2 : Vec3 α) :
    (∀ i, qr_kf_measurementFunctionJacobian p1 p2 i i = 0) ∧
      (qr_kf_measurementFunctionJacobian p1 p2).transpose =
        -qr_kf_measurementFunctionJacobian p1 p2 ∧
      Matrix.dotProduct Xk (qr_kf_measurementFunction Xk p1 p2) = 0 := by
  refine ⟨?_, ?_, ?_⟩
  · intro i
    fin_cases i <;> simp [qr_kf_measurementFunctionJacobian]
  · ext i j
    fin_cases i <;> fin_cases j <;> simp [qr_kf_measurementFunctionJacobian]
  · simp [qr_kf_measurementFunction, Matrix.dotProduct, Fin.sum_univ_four]
    ring

/-- Claim C8, counterexample. The residuals `-6 < 0` give `Rmag(-6) = 1.04`
and `Rmag(0) = 0.04`: the larger residual has the smaller `Rmag`, and likewise for
`Qmag`. -/
theorem noise_not_monotone_on_negatives :
    (-6 : ℚ) < 0 ∧ RmagOf (0 : ℚ) < RmagOf (-6) ∧ QmagOf (0 : ℚ) < QmagOf (-6) := by
  norm_num [RmagOf, QmagOf]

/-- Claim C8, amended. Monotonic noise scaling on nonnegative residuals: for all
`0 <= res1 < res1'`, `Rmag(res1) < Rmag(res1')` where `Rmag(r) = 0.04 + (r/6)^2`,
and for all `0 <= res2 < res2'`, `Qmag(res2) < Qmag(res2')`. -/
theorem noise_monotone_nonneg (res1 res1' res2 res2' : α)
    (h1 : 0 ≤ res1) (h1' : res1 < res1') (h2 : 0 ≤ res2) (h2' : res2 < res2') :
    RmagOf res1 < RmagOf res1' ∧ QmagOf res2 < QmagOf res2' := by
  constructor
  · simp only [RmagOf]
    have : res1 / 6 < res1' / 6 := by linarith
    have h0 : 0 ≤ res1 / 6 := by positivity
    nlinarith
  · simp only [QmagOf]
    have : res2 / 6 < res2' / 6 := by linarith
    have h0 : 0 ≤ res2 / 6 := by positivity
    nlinarith

theorem noise_monotone_nonneg_witness :
    (0 : ℚ) ≤ 3 ∧ (3 : ℚ) < 6 ∧ RmagOf (3 : ℚ) < RmagOf 6 ∧ QmagOf (3 : ℚ) < QmagOf 6 :=
  ⟨by norm_num, by norm_num,
    noise_monotone_nonneg 3 6 3 6 (by norm_num) (by norm_num) (by norm_num) (by norm_num)⟩

end KernelTheorems

section FilterTheorems

variable {α τ : Type} [LinearOrderedField α]

theorem ZTmpSorted_apply (ZTmp : Vec4 α) (indx : Fin 4 → Fin 4) (k : Fin 4) :
    ZTmpSorted ZTmp indx k = if k = 0 then 0 else ZTmp (indx k) - ZTmp (indx 0) := by
  fin_cases k <;> simp [ZTmpSorted, Function.update]

theorem reorderColumns_apply (Mk MTmp : Mat4 α) (indx : Fin 4 → Fin 4) (r k : Fin 4) :
    reorderColumns Mk MTmp indx r k = MTmp r (indx k) := by
  fin_cases k <;> simp [reorderColumns, Matrix.updateColumn_apply]

/-- The sort modelled from the spec returns a descending-order index
permutation. -/
theorem sortIndexesDescending_isDescendingOrder (v : Vec4 α) :
    IsDescendingOrder v (sortIndexesDescending v) := by
  haveI : IsTotal (Fin 4) (fun i j => v j ≤ v i) := ⟨fun a b => le_total (v b) (v a)⟩
  haveI : IsTrans (Fin 4) (fun i j => v j ≤ v i) := ⟨fun a b c h1 h2 => le_trans h2 h1⟩
  set L := ([0, 1, 2, 3] : List (Fin 4)).insertionSort (fun i j => v j ≤ v i) with hL
  have hlen : L.length = 4 := by
    rw [hL, List.length_insertionSort]; rfl
  have hperm : L.Perm [0, 1, 2, 3] := List.perm_insertionSort _ _
  have hnodup : L.Nodup := hperm.nodup_iff.mpr (by decide)
  have hsorted : L.Sorted (fun i j => v j ≤ v i) := List.sorted_insertionSort _ _
  have hget : ∀ k : Fin 4, sortIndexesDescending v k = L.get ⟨k, by rw [hlen]; exact k.2⟩ := by
    intro k
    simp only [sortIndexesDescending, ← hL]
    rw [List.getD_eq_getElem _ _ (by rw [hlen]; exact k.2)]
    rfl
  constructor
  · apply (Finite.injective_iff_bijective).mp
    intro a b hab
    rw [hget, hget] at hab
    have := (List.Nodup.get_inj_iff hnodup).mp hab
    exact Fin.ext (by simpa using this)
  · intro i j hij
    rw [hget, hget]
    rcases eq_or_lt_of_le hij with h | h
    · subst h; exact le_rfl
    · exact List.pairwise_iff_get.mp hsorted _ _ (by simpa using h)

/-- The quadratic form of `G^T W G` at `x` is the quadratic form of `W` at
`G x`. -/
theorem quad_congruence (G W : Mat4 α) (x : Vec4 α) :
    dotProduct x ((G.transpose * W * G).mulVec x) =
      dotProduct (G.mulVec x) (W.mulVec (G.mulVec x)) := by
  rw [← Matrix.mulVec_mulVec, ← Matrix.mulVec_mulVec, Matrix.dotProduct_mulVec,
    Matrix.vecMul_transpose]

theorem accumulate_foldl_quadNonneg (W : Mat4 α) (hW : QuadNonneg W)
    (l : List (Vec3 α × Vec3 α)) (D : Mat4 α) (hD : QuadNonneg D) :
    QuadNonneg (l.foldl
      (fun D p =>
        D + (qr_kf_measurementFunctionJacobian p.1 p.2).transpose * W *
          qr_kf_measurementFunctionJacobian p.1 p.2) D) := by
  induction l generalizing D with
  | nil => exact hD
  | cons p l ih =>
    apply ih
    intro y
    rw [Matrix.add_mulVec, Matrix.dotProduct_add, quad_congruence]
    exact add_nonneg (hD y) (hW _)

theorem accumulate_quadNonneg (W : Mat4 α) (hW : QuadNonneg W) (pc pr : PointCloud α) :
    QuadNonneg (accumulate W pc pr) := by
  apply accumulate_foldl_quadNonneg W hW
  intro y
  simp

theorem regularize_pos (s : Vec4 α) (i : Fin 4) :
    1 / 10000 < regularize s i ∨ regularize s i = 1 := by
  unfold regularize
  split_ifs with h
  · right; rfl
  · left; exact not_le.mp h

theorem regularize_pos' (s : Vec4 α) (i : Fin 4) : 0 < regularize s i := by
  rcases regularize_pos s i with h | h
  · exact lt_trans (by norm_num) h
  · rw [h]; exact one_pos

/-- Whatever the solver returns for `RTmp`, `RInvTmp` has a nonnegative quadratic
form: the regularized eigenvalues are positive. -/
theorem RInvTmp_quadNonneg (env : Env α) (Xk : Vec4 α) (Mk Zk : Mat4 α) (Rmag : α) :
    QuadNonneg (RInvTmp env Xk Mk Zk Rmag) := by
  intro y
  simp only [RInvTmp]
  set U := (env.eigenSolver (RTmp Xk Mk Zk Rmag)).2
  set s := regularize (env.eigenSolver (RTmp Xk Mk Zk Rmag)).1
  have h := quad_congruence U.transpose (Matrix.diagonal fun i => (s i)⁻¹) y
  rw [Matrix.transpose_transpose] at h
  rw [h]
  simp only [Matrix.mulVec_diagonal, Matrix.dotProduct]
  apply Finset.sum_nonneg
  intro i _
  have hs : 0 < (s i)⁻¹ := inv_pos.mpr (regularize_pos' _ i)
  nlinarith [mul_self_nonneg (U.transpose.mulVec y i)]

theorem QInvTmp_quadNonneg (env : Env α) (Xk : Vec4 α) (Mk Zk : Mat4 α) (Rmag Qmag : α)
    (hR : 0 < Rmag) (hQ : 0 < Qmag) :
    QuadNonneg (QInvTmp env Xk Mk Zk Rmag Qmag) := by
  intro y
  have h : QInvTmp env Xk Mk Zk Rmag Qmag = (Rmag / Qmag) • RInvTmp env Xk Mk Zk Rmag := by
    ext i j
    simp only [QInvTmp, Matrix.smul_apply, smul_eq_mul]
    ring
  rw [h, Matrix.smul_mulVec_assoc, Matrix.dotProduct_smul, smul_eq_mul]
  exact mul_nonneg (div_pos hR hQ).le (RInvTmp_quadNonneg env Xk Mk Zk Rmag y)

theorem jacobian_self_mulVec_e0 (d : Vec3 α) :
    (qr_kf_measurementFunctionJacobian d d).mulVec e0 = 0 := by
  funext i
  fin_cases i <;>
    simp [qr_kf_measurementFunctionJacobian, e0, Matrix.mulVec, Matrix.dotProduct,
      Fin.sum_univ_four]

theorem accumulate_foldl_aligned_e0 (W : Mat4 α) (l : List (Vec3 α)) (D : Mat4 α)
    (hD : D.mulVec e0 = 0) :
    ((List.zip l l).foldl
      (fun D p =>
        D + (qr_kf_measurementFunctionJacobian p.1 p.2).transpose * W *
          qr_kf_measurementFunctionJacobian p.1 p.2) D).mulVec e0 = 0 := by
  induction l generalizing D with
  | nil => exact hD
  | cons d l ih =>
    simp only [List.zip_cons_cons, List.foldl_cons]
    apply ih
    rw [Matrix.add_mulVec, hD, ← Matrix.mulVec_mulVec, jacobian_self_mulVec_e0]
    simp

theorem accumulate_aligned_e0 (W : Mat4 α) (l : PointCloud α) :
    (accumulate W l l).mulVec e0 = 0 :=
  accumulate_foldl_aligned_e0 W l 0 (by simp)

theorem e0_ne_zero : (e0 : Vec4 α) ≠ 0 := by
  intro h
  have := congr_fun h 0
  simp [e0] at this

theorem not_parallel_e0 (x : Vec4 α) (hx : ¬ ∃ t : α, x = t • e0) :
    0 < x 1 * x 1 + x 2 * x 2 + x 3 * x 3 := by
  by_contra h
  have h1 := mul_self_nonneg (x 1)
  have h2 := mul_self_nonneg (x 2)
  have h3 := mul_self_nonneg (x 3)
  have e1 : x 1 = 0 := mul_self_eq_zero.mp (by linarith)
  have e2 : x 2 = 0 := mul_self_eq_zero.mp (by linarith)
  have e3 : x 3 = 0 := mul_self_eq_zero.mp (by linarith)
  apply hx
  refine ⟨x 0, ?_⟩
  funext i
  fin_cases i <;> simp [e0, e1, e2, e3]

theorem prior_mulVec_e0 (e : α) :
    ((1 : Mat4 α) * Matrix.diagonal ![0, -e, -e, -e] * (1 : Mat4 α).transpose).mulVec e0 = 0 := by
  rw [Matrix.transpose_one, Matrix.mul_one, Matrix.one_mul]
  funext i
  fin_cases i <;> simp [Matrix.mulVec_diagonal, e0]

theorem prior_quad (e : α) (x : Vec4 α) :
    dotProduct x
      (((1 : Mat4 α) * Matrix.diagonal ![0, -e, -e, -e] * (1 : Mat4 α).transpose).mulVec x) =
      -e * (x 1 * x 1 + x 2 * x 2 + x 3 * x 3) := by
  rw [Matrix.transpose_one, Matrix.mul_one, Matrix.one_mul]
  simp [Matrix.dotProduct, Matrix.mulVec_diagonal, Fin.sum_univ_four]
  ring

theorem DStar_aligned_mulVec_e0 (env : Env α) (Xk : Vec4 α) (e Rmag Qmag : α)
    (p1c p2c normalc : PointCloud α) :
    (DStar env Xk 1 (Matrix.diagonal ![0, -e, -e, -e]) Rmag Qmag
      p1c p1c p2c p2c normalc normalc).mulVec e0 = 0 := by
  simp only [DStar, D1, D2]
  rw [Matrix.add_mulVec, Matrix.sub_mulVec, Matrix.smul_mulVec_assoc,
    Matrix.smul_mulVec_assoc, accumulate_aligned_e0, accumulate_aligned_e0, prior_mulVec_e0]
  simp

theorem DStar_aligned_quad_neg (env : Env α) (Xk : Vec4 α) (e Rmag Qmag : α)
    (he : 0 < e) (hR : 0 < Rmag) (hQ : 0 < Qmag)
    (p1c p2c normalc : PointCloud α) (x : Vec4 α) (hx : ¬ ∃ t : α, x = t • e0) :
    dotProduct x ((DStar env Xk 1 (Matrix.diagonal ![0, -e, -e, -e]) Rmag Qmag
      p1c p1c p2c p2c normalc normalc).mulVec x) < 0 := by
  simp only [DStar, D1, D2]
  rw [Matrix.add_mulVec, Matrix.sub_mulVec, Matrix.smul_mulVec_assoc,
    Matrix.smul_mulVec_assoc, Matrix.dotProduct_add, Matrix.dotProduct_sub,
    Matrix.dotProduct_smul, Matrix.dotProduct_smul, prior_quad]
  have h1 := accumulate_quadNonneg _ (RInvTmp_quadNonneg env Xk 1
    (Matrix.diagonal ![0, -e, -e, -e]) Rmag) (cloudSub p1c p2c) (cloudSub p1c p2c) x
  have h2 := accumulate_quadNonneg _ (QInvTmp_quadNonneg env Xk 1
    (Matrix.diagonal ![0, -e, -e, -e]) Rmag Qmag hR hQ) normalc normalc x
  have h3 := not_parallel_e0 x hx
  simp only [smul_eq_mul]
  nlinarith [mul_pos he h3]

/-- A matrix that annihilates `(1,0,0,0)` and is negative off that axis has, in
any eigen-decomposition, `(1,0,0,0)` or its negative as the eigenvector of a
largest eigenvalue. -/
theorem mode_of_negative_definite (D : Mat4 α) (hD0 : D.mulVec e0 = 0)
    (hneg : ∀ x : Vec4 α, (¬ ∃ t : α, x = t • e0) → dotProduct x (D.mulVec x) < 0)
    (es : Vec4 α × Mat4 α) (hE : IsEigenDecomposition D es) (j0 : Fin 4)
    (hmax : ∀ k, es.1 k ≤ es.1 j0) :
    (fun i => es.2 i j0) = e0 ∨ (fun i => es.2 i j0) = -e0 := by
  obtain ⟨Z, M⟩ := es
  obtain ⟨hEq, hUnit, hDet⟩ := hE
  simp only at hEq hUnit hDet hmax ⊢
  have hcol : ∀ k, D.mulVec (fun i => M i k) = Z k • (fun i => M i k) := by
    intro k
    funext i
    have := congr_fun (congr_fun hEq i) k
    rw [Matrix.mul_diagonal] at this
    simp only [Pi.smul_apply, smul_eq_mul]
    rw [mul_comm, ← this]
    rfl
  have hunit : ∀ k, dotProduct (fun i => M i k) (fun i => M i k) = 1 := by
    intro k
    rw [← hUnit k]
    simp only [Matrix.dotProduct, pow_two]
  have hcol0 : ∀ k, (fun i => M i k) ≠ 0 := by
    intro k h
    have := hunit k
    rw [h] at this
    simp at this
  have hquad : ∀ k, dotProduct (fun i => M i k) (D.mulVec (fun i => M i k)) = Z k := by
    intro k
    rw [hcol, Matrix.dotProduct_smul, hunit, smul_eq_mul, mul_one]
  have hpar : ∀ k, (∃ t : α, (fun i => M i k) = t • e0) → Z k = 0 := by
    rintro k ⟨t, ht⟩
    have h := hcol k
    rw [ht, Matrix.mulVec_smul, hD0, smul_zero] at h
    rcases smul_eq_zero.mp h.symm with h0 | h0
    · exact h0
    · exact absurd (ht ▸ h0) (hcol0 k)
  have hle : ∀ k, Z k ≤ 0 := by
    intro k
    by_cases hp : ∃ t : α, (fun i => M i k) = t • e0
    · exact (hpar k hp).le
    · exact (hquad k ▸ hneg _ hp).le
  have hzero : ∀ k, Z k = 0 → ∃ t : α, (fun i => M i k) = t • e0 := by
    intro k hk
    by_contra hp
    have := hneg _ hp
    rw [hquad, hk] at this
    exact lt_irrefl _ this
  have hex : ∃ k, Z k = 0 := by
    by_contra hno
    push_neg at hno
    have hMM : M * M⁻¹ = 1 := Matrix.mul_nonsing_inv M (isUnit_iff_ne_zero.mpr hDet)
    have hMM' : M⁻¹ * M = 1 := Matrix.nonsing_inv_mul M (isUnit_iff_ne_zero.mpr hDet)
    set a := M⁻¹.mulVec e0 with ha
    have hMa : M.mulVec a = e0 := by
      rw [ha, Matrix.mulVec_mulVec, hMM, Matrix.one_mulVec]
    have h1 : (M * Matrix.diagonal Z).mulVec a = 0 := by
      rw [← hEq, ← Matrix.mulVec_mulVec, hMa, hD0]
    have h2 : (Matrix.diagonal Z).mulVec a = 0 := by
      have := congr_arg (M⁻¹.mulVec) h1
      rwa [← Matrix.mulVec_mulVec, Matrix.mulVec_mulVec, hMM', Matrix.one_mulVec,
        Matrix.mulVec_zero] at this
    have h3 : a = 0 := by
      funext k
      have := congr_fun h2 k
      rw [Matrix.mulVec_diagonal] at this
      rcases mul_eq_zero.mp this with h | h
      · exact absurd h (hno k)
      · exact h
    rw [h3, Matrix.mulVec_zero] at hMa
    exact e0_ne_zero hMa.symm
  obtain ⟨k, hk⟩ := hex
  have hj0 : Z j0 = 0 := le_antisymm (hle j0) (hk ▸ hmax k)
  obtain ⟨t, ht⟩ := hzero j0 hj0
  have ht2 : t * t = 1 := by
    have := hunit j0
    rw [ht] at this
    simpa [Matrix.dotProduct, e0, Fin.sum_univ_four] using this
  rcases mul_self_eq_one_iff.mp ht2 with h | h
  · left; rw [ht, h, one_smul]
  · right; rw [ht, h, neg_smul, one_smul]

/-- The pose extracted from the mode `(1,0,0,0)` or `-(1,0,0,0)` on aligned
clouds is zero. -/
theorem poseOf_identity (m : Libm α) (hm : m.ExactAtIdentity) (Xk : Vec4 α)
    (hX : Xk = e0 ∨ Xk = -e0) (p1c p2c : PointCloud α) :
    poseOf m Xk p1c p1c p2c p2c = 0 := by
  obtain ⟨hs, ha, hn⟩ := hm
  rcases hX with h | h <;> subst h <;>
    · funext i
      fin_cases i <;>
        simp [poseOf, Quaternionld.normalized, Quaternionld.squaredNorm, e0, toRotationMatrix,
          quat2eul, hs, ha, hn, eul0Num, eul0Den, asinArg, eul2Num, eul2Den, Matrix.mulVec,
          Matrix.dotProduct, Fin.sum_univ_three] <;> rfl

/-- Claim C1. For every input to `bingham_normal_kf` and every eigenvalue vector
`ZTmp` the solver returns for `DStar`, if `indx` is a descending-order index
permutation of `ZTmp`, then the returned `Zk` is diagonal (zero off the
diagonal), its entry (0,0) is exactly 0, and each other diagonal entry (k,k),
k = 1, 2, 3, equals `ZTmp[indx[k]] - ZTmp[indx[0]]` and is `<= 0`. -/
theorem bingham_normal_kf_Zk_invariant (env : Env α) (Xk : Vec4 α) (Mk Zk : Mat4 α)
    (Rmag Qmag : α) (p1c p1r p2c p2r normalc normalr : PointCloud α)
    (hidx : IsDescendingOrder
      (ZTmp env Xk Mk Zk Rmag Qmag p1c p1r p2c p2r normalc normalr)
      (indx env Xk Mk Zk Rmag Qmag p1c p1r p2c p2r normalc normalr)) :
    (∀ i j, i ≠ j →
        (bingham_normal_kf env Xk Mk Zk Rmag Qmag p1c p1r p2c p2r normalc normalr).Zk i j = 0) ∧
      (bingham_normal_kf env Xk Mk Zk Rmag Qmag p1c p1r p2c p2r normalc normalr).Zk 0 0 = 0 ∧
      ∀ k, k ≠ 0 →
        (bingham_normal_kf env Xk Mk Zk Rmag Qmag p1c p1r p2c p2r normalc normalr).Zk k k =
            ZTmp env Xk Mk Zk Rmag Qmag p1c p1r p2c p2r normalc normalr
              (indx env Xk Mk Zk Rmag Qmag p1c p1r p2c p2r normalc normalr k)
            - ZTmp env Xk Mk Zk Rmag Qmag p1c p1r p2c p2r normalc normalr
              (indx env Xk Mk Zk Rmag Qmag p1c p1r p2c p2r normalc normalr 0) ∧
          (bingham_normal_kf env Xk Mk Zk Rmag Qmag p1c p1r p2c p2r normalc normalr).Zk k k
            ≤ 0 := by
  refine ⟨?_, ?_, ?_⟩
  · intro i j hij
    simp only [bingham_normal_kf]
    exact Matrix.diagonal_apply_ne _ hij
  · simp [bingham_normal_kf, ZTmpSorted_apply]
  · intro k hk
    have hz : (bingham_normal_kf env Xk Mk Zk Rmag Qmag p1c p1r p2c p2r normalc normalr).Zk k k =
        ZTmp env Xk Mk Zk Rmag Qmag p1c p1r p2c p2r normalc normalr
            (indx env Xk Mk Zk Rmag Qmag p1c p1r p2c p2r normalc normalr k)
          - ZTmp env Xk Mk Zk Rmag Qmag p1c p1r p2c p2r normalc normalr
            (indx env Xk Mk Zk Rmag Qmag p1c p1r p2c p2r normalc normalr 0) := by
      simp only [bingham_normal_kf, Matrix.diagonal_apply_eq, ZTmpSorted_apply, if_neg hk]
    refine ⟨hz, ?_⟩
    rw [hz]
    exact sub_nonpos.mpr (hidx.2 0 k (Fin.zero_le k))

theorem bingham_normal_kf_Zk_invariant_witness :
    IsDescendingOrder
        (ZTmp fixedEnv ![1, 0, 0, 0] 1 (Matrix.diagonal ![0, -1, -1, -1]) 1 1
            [![1, 0, 0]] [![1, 0, 0]] [![0, 0, 0]] [![0, 0, 0]] [![0, 0, 1]] [![0, 0, 1]])
        (indx fixedEnv ![1, 0, 0, 0] 1 (Matrix.diagonal ![0, -1, -1, -1]) 1 1
            [![1, 0, 0]] [![1, 0, 0]] [![0, 0, 0]] [![0, 0, 0]] [![0, 0, 1]] [![0, 0, 1]]) ∧
      (bingham_normal_kf fixedEnv ![1, 0, 0, 0] 1 (Matrix.diagonal ![0, -1, -1, -1]) 1 1
          [![1, 0, 0]] [![1, 0, 0]] [![0, 0, 0]] [![0, 0, 0]] [![0, 0, 1]] [![0, 0, 1]]).Zk 0 0
        = 0 ∧
      (bingham_normal_kf fixedEnv ![1, 0, 0, 0] 1 (Matrix.diagonal ![0, -1, -1, -1]) 1 1
          [![1, 0, 0]] [![1, 0, 0]] [![0, 0, 0]] [![0, 0, 0]] [![0, 0, 1]] [![0, 0, 1]]).Zk 3 3
        ≤ 0 :=
  ⟨sortIndexesDescending_isDescendingOrder _,
    (bingham_normal_kf_Zk_invariant fixedEnv _ _ _ _ _ _ _ _ _ _ _
      (sortIndexesDescending_isDescendingOrder _)).2.1,
    ((bingham_normal_kf_Zk_invariant fixedEnv _ _ _ _ _ _ _ _ _ _ _
      (sortIndexesDescending_isDescendingOrder _)).2.2 3 (by decide)).2⟩

/-- The sort modelled from the spec on the eigenvalues `-3, 0, -1, -2`: the
indices in descending order of the values. -/
theorem sortIndexesDescending_sample :
    sortIndexesDescending (![-3, 0, -1, -2] : Vec4 ℚ) = ![1, 2, 3, 0] := by
  decide

/-- The filter evaluated with the fixed solver output `-3, 0, -1, -2`: the
returned `Zk` is `diag(0, -1, -2, -3)` and the returned mode is column 1 of the
fixed eigenvector matrix. -/
theorem bingham_normal_kf_fixedEnv_eval :
    (bingham_normal_kf fixedEnv ![1, 0, 0, 0] 1 (Matrix.diagonal ![0, -1, -1, -1]) 1 1
        [![1, 0, 0]] [![1, 0, 0]] [![0, 0, 0]] [![0, 0, 0]] [![0, 0, 1]] [![0, 0, 1]]).Zk
      = Matrix.diagonal ![0, -1, -2, -3] ∧
    (bingham_normal_kf fixedEnv ![1, 0, 0, 0] 1 (Matrix.diagonal ![0, -1, -1, -1]) 1 1
        [![1, 0, 0]] [![1, 0, 0]] [![0, 0, 0]] [![0, 0, 0]] [![0, 0, 1]] [![0, 0, 1]]).Xk
      = ![1, 0, 0, 0] := by
  constructor
  · ext i j
    fin_cases i <;> fin_cases j <;>
      simp [bingham_normal_kf, fixedEnv, ZTmp, indx, ZTmpSorted_apply, Matrix.diagonal_apply,
        sortIndexesDescending_sample]
  · funext i
    fin_cases i <;>
      simp [bingham_normal_kf, fixedEnv, ZTmp, MTmp, indx, reorderColumns_apply,
        sortIndexesDescending_sample] <;> rfl

theorem stateAfter_mode (env : Env α) (senv : SearchEnv α τ)
    (ptcldMoving ptcldFixed normalMoving normalFixed : PointCloud α) (k : Nat) (r : Fin 4) :
    (stateAfter env senv ptcldMoving ptcldFixed normalMoving normalFixed k).Xk r =
      (stateAfter env senv ptcldMoving ptcldFixed normalMoving normalFixed k).Mk r 0 := by
  induction k with
  | zero => fin_cases r <;> simp [stateAfter, initialState]
  | succ k ih =>
    simp only [stateAfter]
    generalize stateAfter env senv ptcldMoving ptcldFixed normalMoving normalFixed k = s at ih ⊢
    simp only [iteration]
    split
    · exact ih
    · rename_i r' heq
      split at heq
      · cases heq
      · cases heq
        rfl

/-- Claim C2. Column 0 of `Mk` is always the current mode quaternion `Xk`: it
holds in the state in which the loop is entered (`Xk = (1,0,0,0)`, `Mk = I`), for
every result of `bingham_normal_kf`, where column `k` of the returned `Mk` is
column `indx[k]` of the eigenvector matrix `MTmp` of `DStar` (k = 0..3) and the
returned `Xk` is column 0 of the returned `Mk`, and so in the state after any
number of iterations of the registration loop. -/
theorem mode_is_first_column (env : Env α) (senv : SearchEnv α τ) (Xk : Vec4 α)
    (Mk Zk : Mat4 α) (Rmag Qmag : α) (p1c p1r p2c p2r normalc normalr : PointCloud α)
    (ptcldMoving ptcldFixed normalMoving normalFixed : PointCloud α) :
    (∀ r, (initialState : LoopState α).Xk r = (initialState : LoopState α).Mk r 0) ∧
      (initialState : LoopState α).Xk = ![1, 0, 0, 0] ∧
      (initialState : LoopState α).Mk = 1 ∧
      (∀ r k,
        (bingham_normal_kf env Xk Mk Zk Rmag Qmag p1c p1r p2c p2r normalc normalr).Mk r k =
          MTmp env Xk Mk Zk Rmag Qmag p1c p1r p2c p2r normalc normalr r
            (indx env Xk Mk Zk Rmag Qmag p1c p1r p2c p2r normalc normalr k)) ∧
      (∀ r,
        (bingham_normal_kf env Xk Mk Zk Rmag Qmag p1c p1r p2c p2r normalc normalr).Xk r =
          (bingham_normal_kf env Xk Mk Zk Rmag Qmag p1c p1r p2c p2r normalc normalr).Mk r 0) ∧
      (∀ n r,
        (stateAfter env senv ptcldMoving ptcldFixed normalMoving normalFixed n).Xk r =
          (stateAfter env senv ptcldMoving ptcldFixed normalMoving normalFixed n).Mk r 0) := by
  refine ⟨?_, rfl, rfl, ?_, ?_, ?_⟩
  · intro r
    fin_cases r <;> simp [initialState]
  · intro r k
    simp only [bingham_normal_kf, reorderColumns_apply]
  · intro r
    simp only [bingham_normal_kf]
  · intro n r
    exact stateAfter_mode env senv ptcldMoving ptcldFixed normalMoving normalFixed n r

theorem isEigenDecomposition_of_diagonal (A : Mat4 α) (h : ∀ i j, i ≠ j → A i j = 0) :
    IsEigenDecomposition A (fun i => A i i, 1) := by
  refine ⟨?_, ?_, ?_⟩
  · simp only [Matrix.mul_one, Matrix.one_mul]
    ext i j
    by_cases hij : i = j
    · subst hij; simp
    · rw [Matrix.diagonal_apply_ne _ hij]; exact h i j hij
  · intro k
    fin_cases k <;> simp [Fin.sum_univ_four, Matrix.one_apply]
  · simp

theorem congruence_diagonal_apply (G : Mat4 α) (r : Vec4 α) (i j : Fin 4) :
    (G.transpose * Matrix.diagonal r * G) i j = ∑ k, G k i * r k * G k j := by
  rw [Matrix.mul_apply]
  apply Finset.sum_congr rfl
  intro k _
  rw [Matrix.mul_diagonal, Matrix.transpose_apply]

theorem RInvTmp_sampleEnv (Xk : Vec4 ℚ) (Mk Zk : Mat4 ℚ) (Rmag : ℚ) :
    RInvTmp sampleEnv Xk Mk Zk Rmag =
      Matrix.diagonal fun i => (regularize (fun i => RTmp Xk Mk Zk Rmag i i) i)⁻¹ := by
  simp [RInvTmp, sampleEnv]

theorem QInvTmp_sampleEnv (Xk : Vec4 ℚ) (Mk Zk : Mat4 ℚ) (Rmag Qmag : ℚ) :
    QInvTmp sampleEnv Xk Mk Zk Rmag Qmag =
      Matrix.diagonal fun i =>
        (regularize (fun i => RTmp Xk Mk Zk Rmag i i) i)⁻¹ * Rmag / Qmag := by
  ext i j
  simp only [QInvTmp, RInvTmp_sampleEnv, Matrix.diagonal_apply]
  split_ifs <;> simp

theorem jacobian_sample_x (k i : Fin 4) :
    qr_kf_measurementFunctionJacobian (![1, 0, 0] : Vec3 ℚ) ![1, 0, 0] k i =
      if k = 2 ∧ i = 3 then -2 else if k = 3 ∧ i = 2 then 2 else 0 := by
  fin_cases k <;> fin_cases i <;> simp [qr_kf_measurementFunctionJacobian] <;>
    first
    | rfl
    | norm_num

theorem jacobian_sample_z (k i : Fin 4) :
    qr_kf_measurementFunctionJacobian (![0, 0, 1] : Vec3 ℚ) ![0, 0, 1] k i =
      if k = 1 ∧ i = 2 then -2 else if k = 2 ∧ i = 1 then 2 else 0 := by
  fin_cases k <;> fin_cases i <;> simp [qr_kf_measurementFunctionJacobian] <;>
    first
    | rfl
    | norm_num

theorem DStar_sample_offDiagonal (i j : Fin 4) (hij : i ≠ j) :
    DStar sampleEnv ![1, 0, 0, 0] 1 (Matrix.diagonal ![0, -1, -1, -1]) 1 1
      [![1, 0, 0]] [![1, 0, 0]] [![0, 0, 0]] [![0, 0, 0]] [![0, 0, 1]] [![0, 0, 1]] i j = 0 := by
  have hd : (![1, 0, 0] : Vec3 ℚ) - ![0, 0, 0] = ![1, 0, 0] := by
    funext k
    fin_cases k <;> simp
  simp only [DStar, D1, D2, QInvTmp_sampleEnv, hd, RInvTmp_sampleEnv, accumulate, cloudSub,
    List.zipWith_cons_cons, List.zipWith_nil_right, List.zip_cons_cons, List.zip_nil_right,
    List.foldl_cons, List.foldl_nil, Matrix.add_apply, Matrix.sub_apply, Matrix.smul_apply,
    Matrix.zero_apply, congruence_diagonal_apply, Fin.sum_univ_four, Matrix.transpose_one,
    Matrix.mul_one, Matrix.one_mul, Matrix.diagonal_apply_ne _ hij, jacobian_sample_x,
    jacobian_sample_z]
  fin_cases i <;> fin_cases j <;>
    first
    | exact absurd rfl hij
    | simp


/-- Claim C3. Idempotence under zero correspondence error: for the prior
`Xk = (1,0,0,0)`, `Mk = I`, `Zk = diag(0,-e,-e,-e)` with `e > 0`, any
`Rmag, Qmag > 0` and exactly aligned correspondences (`p1c = p1r`, `p2c = p2r`,
`normalc = normalr`, at least one column each), whatever the eigen-solver returns
for `RTmp`, the matrix `DStar` satisfies `DStar * (1,0,0,0) = 0` and
`x^T DStar x < 0` for every `x` not parallel to `(1,0,0,0)`.  Hence, when the
solver returns an eigen-decomposition of `DStar`, `indx` is a descending-order
index permutation of its eigenvalues and the math library is exact at
`sqrt(1)`, `atan2(0,1)` and `asin(0)`, the new mode is `(1,0,0,0)` or
`-(1,0,0,0)` and the returned `Xreg` is zero in all six components. -/
theorem idempotence_zero_error (env : Env α) (e Rmag Qmag : α)
    (p1c p1r p2c p2r normalc normalr : PointCloud α)
    (he : 0 < e) (hR : 0 < Rmag) (hQ : 0 < Qmag)
    (hp1 : p1c = p1r) (hp2 : p2c = p2r) (hn : normalc = normalr)
    (h1 : p1c ≠ []) (h2 : p2c ≠ []) (h3 : normalc ≠ []) :
    (DStar env ![1, 0, 0, 0] 1 (Matrix.diagonal ![0, -e, -e, -e]) Rmag Qmag
        p1c p1r p2c p2r normalc normalr).mulVec ![1, 0, 0, 0] = 0 ∧
      (∀ x : Vec4 α, (¬ ∃ t : α, x = t • ![1, 0, 0, 0]) →
        dotProduct x
          ((DStar env ![1, 0, 0, 0] 1 (Matrix.diagonal ![0, -e, -e, -e]) Rmag Qmag
            p1c p1r p2c p2r normalc normalr).mulVec x) < 0) ∧
      (IsEigenDecomposition
          (DStar env ![1, 0, 0, 0] 1 (Matrix.diagonal ![0, -e, -e, -e]) Rmag Qmag
            p1c p1r p2c p2r normalc normalr)
          (env.eigenSolver
            (DStar env ![1, 0, 0, 0] 1 (Matrix.diagonal ![0, -e, -e, -e]) Rmag Qmag
              p1c p1r p2c p2r normalc normalr)) →
        IsDescendingOrder
          (ZTmp env ![1, 0, 0, 0] 1 (Matrix.diagonal ![0, -e, -e, -e]) Rmag Qmag
            p1c p1r p2c p2r normalc normalr)
          (indx env ![1, 0, 0, 0] 1 (Matrix.diagonal ![0, -e, -e, -e]) Rmag Qmag
            p1c p1r p2c p2r normalc normalr) →
        env.libm.ExactAtIdentity →
        ((bingham_normal_kf env ![1, 0, 0, 0] 1 (Matrix.diagonal ![0, -e, -e, -e]) Rmag Qmag
              p1c p1r p2c p2r normalc normalr).Xk = ![1, 0, 0, 0] ∨
            (bingham_normal_kf env ![1, 0, 0, 0] 1 (Matrix.diagonal ![0, -e, -e, -e]) Rmag Qmag
              p1c p1r p2c p2r normalc normalr).Xk = -![1, 0, 0, 0]) ∧
          (bingham_normal_kf env ![1, 0, 0, 0] 1 (Matrix.diagonal ![0, -e, -e, -e]) Rmag Qmag
            p1c p1r p2c p2r normalc normalr).Xreg = 0) := by
  have _ := h1
  have _ := h2
  have _ := h3
  subst hp1 hp2 hn
  have hzero := DStar_aligned_mulVec_e0 env ![1, 0, 0, 0] e Rmag Qmag p1c p2c normalc
  have hneg := DStar_aligned_quad_neg env ![1, 0, 0, 0] e Rmag Qmag he hR hQ p1c p2c normalc
  refine ⟨hzero, hneg, ?_⟩
  intro hE hS hm
  have hmax : ∀ k,
      (env.eigenSolver (DStar env ![1, 0, 0, 0] 1 (Matrix.diagonal ![0, -e, -e, -e]) Rmag Qmag
        p1c p1c p2c p2c normalc normalc)).1 k ≤
      (env.eigenSolver (DStar env ![1, 0, 0, 0] 1 (Matrix.diagonal ![0, -e, -e, -e]) Rmag Qmag
        p1c p1c p2c p2c normalc normalc)).1
        (indx env ![1, 0, 0, 0] 1 (Matrix.diagonal ![0, -e, -e, -e]) Rmag Qmag
          p1c p1c p2c p2c normalc normalc 0) := by
    intro k
    obtain ⟨j, hj⟩ := hS.1.2 k
    rw [← hj]
    exact hS.2 0 j (Fin.zero_le j)
  have hmode := mode_of_negative_definite _ hzero hneg _ hE _ hmax
  have hXk : (bingham_normal_kf env ![1, 0, 0, 0] 1 (Matrix.diagonal ![0, -e, -e, -e]) Rmag Qmag
      p1c p1c p2c p2c normalc normalc).Xk = fun i =>
        (env.eigenSolver (DStar env ![1, 0, 0, 0] 1 (Matrix.diagonal ![0, -e, -e, -e]) Rmag Qmag
          p1c p1c p2c p2c normalc normalc)).2 i
          (indx env ![1, 0, 0, 0] 1 (Matrix.diagonal ![0, -e, -e, -e]) Rmag Qmag
            p1c p1c p2c p2c normalc normalc 0) := by
    funext i
    simp only [bingham_normal_kf, reorderColumns_apply, MTmp]
  have hmode2 : (bingham_normal_kf env ![1, 0, 0, 0] 1 (Matrix.diagonal ![0, -e, -e, -e]) Rmag
      Qmag p1c p1c p2c p2c normalc normalc).Xk = e0 ∨
      (bingham_normal_kf env ![1, 0, 0, 0] 1 (Matrix.diagonal ![0, -e, -e, -e]) Rmag
      Qmag p1c p1c p2c p2c normalc normalc).Xk = -e0 := by
    rw [hXk]; exact hmode
  refine ⟨hmode2, ?_⟩
  exact poseOf_identity env.libm hm _ hmode2 p1c p2c

theorem idempotence_zero_error_witness :
    ((0 : ℚ) < 1 ∧ ([![1, 0, 0]] : PointCloud ℚ) ≠ [] ∧
      IsEigenDecomposition
        (DStar sampleEnv ![1, 0, 0, 0] 1 (Matrix.diagonal ![0, -1, -1, -1]) 1 1
          [![1, 0, 0]] [![1, 0, 0]] [![0, 0, 0]] [![0, 0, 0]] [![0, 0, 1]] [![0, 0, 1]])
        (sampleEnv.eigenSolver
          (DStar sampleEnv ![1, 0, 0, 0] 1 (Matrix.diagonal ![0, -1, -1, -1]) 1 1
            [![1, 0, 0]] [![1, 0, 0]] [![0, 0, 0]] [![0, 0, 0]] [![0, 0, 1]] [![0, 0, 1]])) ∧
      sampleEnv.libm.ExactAtIdentity) ∧
      (bingham_normal_kf sampleEnv ![1, 0, 0, 0] 1 (Matrix.diagonal ![0, -1, -1, -1]) 1 1
        [![1, 0, 0]] [![1, 0, 0]] [![0, 0, 0]] [![0, 0, 0]] [![0, 0, 1]] [![0, 0, 1]]).Xreg = 0 :=
  ⟨⟨by norm_num, by simp, isEigenDecomposition_of_diagonal _ DStar_sample_offDiagonal,
      ⟨rfl, rfl, rfl⟩⟩,
    ((idempotence_zero_error sampleEnv 1 1 1 [![1, 0, 0]] [![1, 0, 0]] [![0, 0, 0]]
      [![0, 0, 0]] [![0, 0, 1]] [![0, 0, 1]] (by norm_num) (by norm_num) (by norm_num)
      rfl rfl rfl (by simp) (by simp) (by simp)).2.2
      (isEigenDecomposition_of_diagonal _ DStar_sample_offDiagonal)
      (sortIndexesDescending_isDescendingOrder _) ⟨rfl, rfl, rfl⟩).2⟩


/-- The accumulation loop computes the sum of its summands. -/
theorem accumulate_eq_sum (W : Mat4 α) (pc pr : PointCloud α) :
    accumulate W pc pr =
      ((List.zip pc pr).map fun p =>
        (qr_kf_measurementFunctionJacobian p.1 p.2).transpose * W *
          qr_kf_measurementFunctionJacobian p.1 p.2).sum := by
  unfold accumulate
  have h : ∀ (l : List (Vec3 α × Vec3 α)) (D : Mat4 α),
      l.foldl
        (fun D p =>
          D + (qr_kf_measurementFunctionJacobian p.1 p.2).transpose * W *
            qr_kf_measurementFunctionJacobian p.1 p.2) D =
        D + (l.map fun p =>
          (qr_kf_measurementFunctionJacobian p.1 p.2).transpose * W *
            qr_kf_measurementFunctionJacobian p.1 p.2).sum := by
    intro l
    induction l with
    | nil => intro D; simp
    | cons p l ih =>
      intro D
      rw [List.foldl_cons, ih, List.map_cons, List.sum_cons, add_assoc]
  rw [h, zero_add]

/-- Claim C13, amended. Point information matrix: in `bingham_normal_kf`, `D1`
equals the sum, over every column pair `(pc_i, pr_i)` of the difference clouds
`pc = p1c - p2c` and `pr = p1r - p2r` (the first point batch minus the second,
column by column, so `pc_i = p1c_i - p2c_i` and `pr_i = p1r_i - p2r_i`), of
`J(pc_i, pr_i)^T * RInvTmp * J(pc_i, pr_i)`, where `J` is
`qr_kf_measurementFunctionJacobian`. -/
theorem D1_eq_sum_over_differences (env : Env α) (Xk : Vec4 α) (Mk Zk : Mat4 α) (Rmag : α)
    (p1c p1r p2c p2r : PointCloud α) :
    D1 env Xk Mk Zk Rmag p1c p1r p2c p2r =
        ((List.zip (cloudSub p1c p2c) (cloudSub p1r p2r)).map fun p =>
          (qr_kf_measurementFunctionJacobian p.1 p.2).transpose *
            RInvTmp env Xk Mk Zk Rmag * qr_kf_measurementFunctionJacobian p.1 p.2).sum ∧
      D1 env Xk Mk Zk Rmag p1c p1r p2c p2r =
        D1_spec env Xk Mk Zk Rmag (cloudSub p1c p2c) (cloudSub p1r p2r) ∧
      (∀ i (h1 : i < p1c.length) (h2 : i < p2c.length),
        (cloudSub p1c p2c).getD i 0 = p1c.get ⟨i, h1⟩ - p2c.get ⟨i, h2⟩) ∧
      (∀ i (h1 : i < p1r.length) (h2 : i < p2r.length),
        (cloudSub p1r p2r).getD i 0 = p1r.get ⟨i, h1⟩ - p2r.get ⟨i, h2⟩) := by
  refine ⟨?_, ?_, ?_, ?_⟩
  · simp only [D1, accumulate_eq_sum]
  · simp only [D1, D1_spec, accumulate_eq_sum]
  · intro i h1 h2
    have hl : i < (cloudSub p1c p2c).length := by
      simp only [cloudSub, List.length_zipWith]; omega
    rw [List.getD_eq_getElem _ _ hl]
    simp [cloudSub]
  · intro i h1 h2
    have hl : i < (cloudSub p1r p2r).length := by
      simp only [cloudSub, List.length_zipWith]; omega
    rw [List.getD_eq_getElem _ _ hl]
    simp [cloudSub]

/-- Claim C13, counterexample. With both batches equal to the single column
`(1,0,0)` the code's `D1` is the zero matrix (the differences vanish), while the
sum over the column pairs of the first batch `(p1c, p1r)` itself has a nonzero
entry (3,3). -/
theorem D1_is_not_sum_over_first_batch :
    D1 sampleEnv ![1, 0, 0, 0] 1 (Matrix.diagonal ![0, -1, -1, -1]) 1
        [![1, 0, 0]] [![1, 0, 0]] [![1, 0, 0]] [![1, 0, 0]] = 0 ∧
      D1_spec sampleEnv ![1, 0, 0, 0] 1 (Matrix.diagonal ![0, -1, -1, -1]) 1
        [![1, 0, 0]] [![1, 0, 0]] 3 3 ≠ 0 ∧
      D1 sampleEnv ![1, 0, 0, 0] 1 (Matrix.diagonal ![0, -1, -1, -1]) 1
        [![1, 0, 0]] [![1, 0, 0]] [![1, 0, 0]] [![1, 0, 0]] ≠
      D1_spec sampleEnv ![1, 0, 0, 0] 1 (Matrix.diagonal ![0, -1, -1, -1]) 1
        [![1, 0, 0]] [![1, 0, 0]] := by
  have hJ0 : qr_kf_measurementFunctionJacobian ((![1, 0, 0] : Vec3 ℚ) - ![1, 0, 0])
      (![1, 0, 0] - ![1, 0, 0]) = 0 := by
    rw [sub_self]
    ext i j
    fin_cases i <;> fin_cases j <;> simp [qr_kf_measurementFunctionJacobian] <;> rfl
  have h0 : D1 sampleEnv ![1, 0, 0, 0] 1 (Matrix.diagonal ![0, -1, -1, -1]) 1
      [![1, 0, 0]] [![1, 0, 0]] [![1, 0, 0]] [![1, 0, 0]] = 0 := by
    simp only [D1, accumulate, cloudSub, List.zipWith_cons_cons, List.zipWith_nil_right,
      List.zip_cons_cons, List.zip_nil_right, List.foldl_cons, List.foldl_nil, hJ0]
    simp
  have h1 : D1_spec sampleEnv ![1, 0, 0, 0] 1 (Matrix.diagonal ![0, -1, -1, -1]) 1
      [![1, 0, 0]] [![1, 0, 0]] 3 3 ≠ 0 := by
    simp only [D1_spec, RInvTmp_sampleEnv, List.zip_cons_cons, List.zip_nil_right,
      List.map_cons, List.map_nil, List.sum_cons, List.sum_nil, add_zero,
      congruence_diagonal_apply, Fin.sum_univ_four, jacobian_sample_x]
    have hpos := regularize_pos'
      (fun i => RTmp ![1, 0, 0, 0] 1 (Matrix.diagonal ![0, -1, -1, -1]) (1 : ℚ) i i) 2
    simp
    exact hpos.ne'
  refine ⟨h0, h1, ?_⟩
  intro h
  rw [h0] at h
  exact h1 (by rw [← h]; rfl)

theorem regularized_congruence_quadNonneg (U : Mat4 α) (s : Vec4 α) :
    QuadNonneg (U * Matrix.diagonal (fun i => (regularize s i)⁻¹) * U.transpose) := by
  intro y
  have h := quad_congruence U.transpose (Matrix.diagonal fun i => (regularize s i)⁻¹) y
  rw [Matrix.transpose_transpose] at h
  rw [h]
  simp only [Matrix.mulVec_diagonal, Matrix.dotProduct]
  apply Finset.sum_nonneg
  intro i _
  have hs : 0 < (regularize s i)⁻¹ := inv_pos.mpr (regularize_pos' _ i)
  nlinarith [mul_self_nonneg (U.transpose.mulVec y i)]

/-- Claim C15. Eigenvalue regularization: for every eigenvalue vector `s`, the
regularization replaces each entry `s_i <= 1e-4` by 1 and leaves each entry
`s_i > 1e-4` unchanged, so every entry that is inverted is `> 1e-4` and positive;
`RInvTmp` is `U diag(1/s) U^T` on the regularized eigenvalues of `RTmp`, and for
any matrix `U` that product is symmetric with a nonnegative quadratic form. -/
theorem eigenvalue_regularization (env : Env α) (Xk : Vec4 α) (Mk Zk : Mat4 α) (Rmag : α)
    (s : Vec4 α) (U : Mat4 α) :
    (∀ i, s i ≤ 1 / 10000 → regularize s i = 1) ∧
      (∀ i, 1 / 10000 < s i → regularize s i = s i) ∧
      (∀ i, 1 / 10000 < regularize s i) ∧
      (∀ i, 0 < regularize s i) ∧
      RInvTmp env Xk Mk Zk Rmag =
        (env.eigenSolver (RTmp Xk Mk Zk Rmag)).2 *
          Matrix.diagonal
            (fun i => (regularize (env.eigenSolver (RTmp Xk Mk Zk Rmag)).1 i)⁻¹) *
          (env.eigenSolver (RTmp Xk Mk Zk Rmag)).2.transpose ∧
      (U * Matrix.diagonal (fun i => (regularize s i)⁻¹) * U.transpose).transpose =
        U * Matrix.diagonal (fun i => (regularize s i)⁻¹) * U.transpose ∧
      (∀ y : Vec4 α,
        0 ≤ dotProduct y
          ((U * Matrix.diagonal (fun i => (regularize s i)⁻¹) * U.transpose).mulVec y)) ∧
      (∀ y : Vec4 α, 0 ≤ dotProduct y ((RInvTmp env Xk Mk Zk Rmag).mulVec y)) := by
  refine ⟨?_, ?_, ?_, ?_, rfl, ?_, ?_, ?_⟩
  · intro i h
    simp only [regularize, if_pos h]
  · intro i h
    simp only [regularize, if_neg (not_le.mpr h)]
  · intro i
    rcases regularize_pos s i with h | h
    · exact h
    · rw [h]; norm_num
  · intro i
    exact regularize_pos' s i
  · rw [Matrix.transpose_mul, Matrix.transpose_mul, Matrix.transpose_transpose,
      Matrix.diagonal_transpose, Matrix.mul_assoc]
  · exact regularized_congruence_quadNonneg U s
  · exact RInvTmp_quadNonneg env Xk Mk Zk Rmag

/-- Claim C17, the code at the failing input. With one column in each of `p1c`,
`p1r`, `p2c` and two columns in `p2r` the column counts are not all equal, yet the
dimension check of `bingham_normal_kf` writes nothing: its third comparison
repeats `p1c` against `p2c` and `p2r` is never looked at.  A second column in
`p1r` or in `p2c` instead is reported. -/
theorem dimension_mismatch_unreported :
    ([![0, 0, 0]] : PointCloud ℚ).length ≠ ([![0, 0, 0], ![1, 1, 1]] : PointCloud ℚ).length ∧
      bingham_normal_kf_diagnostics ([![0, 0, 0]] : PointCloud ℚ) [![0, 0, 0]] [![0, 0, 0]]
        [![0, 0, 0], ![1, 1, 1]] = [] ∧
      bingham_normal_kf_diagnostics ([![0, 0, 0]] : PointCloud ℚ) [![0, 0, 0], ![1, 1, 1]]
        [![0, 0, 0]] [![0, 0, 0]] = ["pxx are not equal in size\n"] ∧
      bingham_normal_kf_diagnostics ([![0, 0, 0]] : PointCloud ℚ) [![0, 0, 0]]
        [![0, 0, 0], ![1, 1, 1]] [![0, 0, 0]] = ["pxx are not equal in size\n"] := by
  refine ⟨by decide, ?_, ?_, ?_⟩ <;> simp [bingham_normal_kf_diagnostics]

theorem cloudSub_translate (a : Vec3 α) (p q : PointCloud α) :
    cloudSub (translateCloud a p) (translateCloud a q) = cloudSub p q := by
  simp only [cloudSub, translateCloud, List.zipWith_map]
  congr 1
  funext u v
  exact add_sub_add_right_eq_sub u v a

/-- Claim C18. Translation invariance of the orientation update: for all
3-vectors `a` and `b`, adding `a` to every column of `p1c` and `p2c` and `b` to
every column of `p1r` and `p2r` leaves the difference clouds `p1c - p2c` and
`p1r - p2r`, hence `D1` and `DStar`, unchanged. -/
theorem translation_invariance (env : Env α) (Xk : Vec4 α) (Mk Zk : Mat4 α) (Rmag Qmag : α)
    (p1c p1r p2c p2r normalc normalr : PointCloud α) (a b : Vec3 α) :
    cloudSub (translateCloud a p1c) (translateCloud a p2c) = cloudSub p1c p2c ∧
      cloudSub (translateCloud b p1r) (translateCloud b p2r) = cloudSub p1r p2r ∧
      D1 env Xk Mk Zk Rmag (translateCloud a p1c) (translateCloud b p1r)
          (translateCloud a p2c) (translateCloud b p2r) =
        D1 env Xk Mk Zk Rmag p1c p1r p2c p2r ∧
      DStar env Xk Mk Zk Rmag Qmag (translateCloud a p1c) (translateCloud b p1r)
          (translateCloud a p2c) (translateCloud b p2r) normalc normalr =
        DStar env Xk Mk Zk Rmag Qmag p1c p1r p2c p2r normalc normalr := by
  refine ⟨cloudSub_translate a p1c p2c, cloudSub_translate b p1r p2r, ?_, ?_⟩
  · simp only [D1, cloudSub_translate]
  · simp only [DStar, D1, cloudSub_translate]

theorem foldl_min_le (l : List α) (a : α) :
    l.foldl min a ≤ a ∧ (∀ x ∈ l, l.foldl min a ≤ x) ∧ (l.foldl min a = a ∨ l.foldl min a ∈ l) := by
  induction l generalizing a with
  | nil => simp
  | cons b l ih =>
    obtain ⟨h1, h2, h3⟩ := ih (min a b)
    refine ⟨?_, ?_, ?_⟩
    · exact le_trans h1 (min_le_left a b)
    · intro x hx
      rcases List.mem_cons.mp hx with hx | hx
      · rw [hx]; exact le_trans h1 (min_le_right a b)
      · exact h2 x hx
    · rcases h3 with h | h
      · rcases min_choice a b with hm | hm
        · left; rw [List.foldl_cons, h, hm]
        · right; rw [List.foldl_cons, h, hm]; exact List.mem_cons_self _ _
      · right; exact List.mem_cons_of_mem _ h

theorem mem_coeffs (A : Mat4 α) (i j : Fin 4) : A i j ∈ coeffs A := by
  fin_cases i <;> fin_cases j <;> simp [coeffs]

theorem mem_coeffs_iff (A : Mat4 α) (x : α) : x ∈ coeffs A ↔ ∃ i j, x = A i j := by
  constructor
  · intro h
    simp only [coeffs, List.mem_flatMap, List.mem_map] at h
    obtain ⟨j, _, i, _, rfl⟩ := h
    exact ⟨i, j, rfl⟩
  · rintro ⟨i, j, rfl⟩
    exact mem_coeffs A i j

/-- `minCoeff` is a lower bound of the coefficients and is one of them. -/
theorem minCoeff_spec (A : Mat4 α) :
    (∀ i j, minCoeff A ≤ A i j) ∧ ∃ i j, minCoeff A = A i j := by
  obtain ⟨h1, h2, h3⟩ := foldl_min_le (coeffs A) (A 0 0)
  refine ⟨fun i j => h2 _ (mem_coeffs A i j), ?_⟩
  rcases h3 with h | h
  · exact ⟨0, 0, h⟩
  · exact (mem_coeffs_iff A _).mp h

theorem inverse_eq_inv (A : Mat4 α) : inverse A = A⁻¹ := by
  rw [inverse, Matrix.inv_def, Ring.inverse_eq_inv']

theorem inv_smul_of_ne_zero (A : Mat4 α) (k : α) (hk : k ≠ 0) (h : IsUnit A.det) :
    (k • A)⁻¹ = k⁻¹ • A⁻¹ := by
  apply Matrix.inv_eq_left_inv
  rw [Matrix.smul_mul, Matrix.mul_smul, smul_smul, inv_mul_cancel₀ hk, one_smul,
    Matrix.nonsing_inv_mul A h]

theorem tempInv_eq_inv (Mk Zk : Mat4 α) (h : (temp Mk Zk).det ≠ 0) :
    tempInv Mk Zk = (temp Mk Zk)⁻¹ := by
  have hu : IsUnit (temp Mk Zk).det := isUnit_iff_ne_zero.mpr h
  have htiny : (tiny : α) ≠ 0 := by
    simp only [tiny]
    positivity
  simp only [tempInv]
  split_ifs
  · rw [inverse_eq_inv, inv_smul_of_ne_zero _ _ (inv_ne_zero htiny) hu, smul_smul, inv_inv]
    have : (huge : α) * tiny = 1 := by
      simp only [huge, tiny]
      exact mul_inv_cancel₀ (by positivity)
    rw [this, one_smul]
  · exact inverse_eq_inv _

/-- Claim C14. Re-centering makes the inversion well defined: for every
orthogonal `Mk` and every diagonal `Zk = diag(z)` with `z 0 = 0`, all entries
`<= 0` and at least one `< 0`, the minimum coefficient `c` of `Zk` is negative and
is one of the diagonal entries; `temp = Mk (Zk + cI) Mk^T` is symmetric with
`x^T temp x <= c x^T x` for every `x` (all eigenvalues `<= c < 0`), so negative
definite and of nonzero determinant; the computed `tempInv` is its two-sided
inverse, and `Pk = -0.5 * tempInv` is symmetric positive definite. -/
theorem recentering_negative_definite (Mk : Mat4 α) (z : Vec4 α)
    (hM : Mk.transpose * Mk = 1) (h0 : z 0 = 0) (hle : ∀ i, z i ≤ 0) (hlt : ∃ i, z i < 0) :
    minCoeff (Matrix.diagonal z) < 0 ∧
      (∀ i j, minCoeff (Matrix.diagonal z) ≤ Matrix.diagonal z i j) ∧
      (∃ i, minCoeff (Matrix.diagonal z) = z i) ∧
      (temp Mk (Matrix.diagonal z)).transpose = temp Mk (Matrix.diagonal z) ∧
      (∀ x : Vec4 α,
        dotProduct x ((temp Mk (Matrix.diagonal z)).mulVec x) ≤
          minCoeff (Matrix.diagonal z) * dotProduct x x) ∧
      (∀ x : Vec4 α, x ≠ 0 → dotProduct x ((temp Mk (Matrix.diagonal z)).mulVec x) < 0) ∧
      (temp Mk (Matrix.diagonal z)).det ≠ 0 ∧
      temp Mk (Matrix.diagonal z) * tempInv Mk (Matrix.diagonal z) = 1 ∧
      tempInv Mk (Matrix.diagonal z) * temp Mk (Matrix.diagonal z) = 1 ∧
      (Pk Mk (Matrix.diagonal z)).transpose = Pk Mk (Matrix.diagonal z) ∧
      (∀ x : Vec4 α, x ≠ 0 → 0 < dotProduct x ((Pk Mk (Matrix.diagonal z)).mulVec x)) := by
  have _ := h0
  obtain ⟨hmin, i1, j1, hc⟩ := minCoeff_spec (Matrix.diagonal z)
  set c := minCoeff (Matrix.diagonal z) with hcdef
  have hcz : ∀ i, c ≤ z i := fun i => by
    have := hmin i i
    rwa [Matrix.diagonal_apply_eq] at this
  have hcneg : c < 0 := by
    obtain ⟨i, hi⟩ := hlt
    exact lt_of_le_of_lt (hcz i) hi
  have hcentry : ∃ i, c = z i := by
    by_cases hij : i1 = j1
    · subst hij
      rw [Matrix.diagonal_apply_eq] at hc
      exact ⟨i1, hc⟩
    · rw [Matrix.diagonal_apply_ne _ hij] at hc
      exact absurd hc hcneg.ne
  have hMM : Mk * Mk.transpose = 1 := (Matrix.mul_eq_one_comm).mp hM
  have htemp : temp Mk (Matrix.diagonal z) =
      Mk * Matrix.diagonal (fun i => z i + c) * Mk.transpose := by
    simp only [temp, ← hcdef]
    congr 2
    ext i j
    by_cases hij : i = j
    · subst hij; simp
    · simp [Matrix.diagonal_apply_ne _ hij, Matrix.one_apply_ne hij]
  have hsymm : (temp Mk (Matrix.diagonal z)).transpose = temp Mk (Matrix.diagonal z) := by
    rw [htemp, Matrix.transpose_mul, Matrix.transpose_mul, Matrix.transpose_transpose,
      Matrix.diagonal_transpose, Matrix.mul_assoc]
  have hnorm : ∀ x : Vec4 α,
      dotProduct (Mk.transpose.mulVec x) (Mk.transpose.mulVec x) = dotProduct x x := by
    intro x
    have h := quad_congruence Mk.transpose (1 : Mat4 α) x
    rw [Matrix.transpose_transpose, Matrix.mul_one, hMM, Matrix.one_mulVec,
      Matrix.one_mulVec] at h
    exact h.symm
  have hquad : ∀ x : Vec4 α,
      dotProduct x ((temp Mk (Matrix.diagonal z)).mulVec x) ≤ c * dotProduct x x := by
    intro x
    have h := quad_congruence Mk.transpose (Matrix.diagonal fun i => z i + c) x
    rw [Matrix.transpose_transpose] at h
    rw [htemp, h, ← hnorm x]
    simp only [Matrix.mulVec_diagonal, Matrix.dotProduct, Finset.mul_sum]
    apply Finset.sum_le_sum
    intro i _
    have hz := hle i
    nlinarith [mul_self_nonneg (Mk.transpose.mulVec x i)]
  have hpos : ∀ x : Vec4 α, x ≠ 0 → 0 < dotProduct x x := by
    intro x hx
    obtain ⟨i, hi⟩ : ∃ i, x i ≠ 0 := by
      by_contra hne
      push_neg at hne
      exact hx (funext hne)
    simp only [Matrix.dotProduct]
    exact lt_of_lt_of_le (mul_self_pos.mpr hi)
      (Finset.single_le_sum (f := fun i => x i * x i) (fun j _ => mul_self_nonneg (x j))
        (Finset.mem_univ i))
  have hneg : ∀ x : Vec4 α, x ≠ 0 →
      dotProduct x ((temp Mk (Matrix.diagonal z)).mulVec x) < 0 := by
    intro x hx
    exact lt_of_le_of_lt (hquad x) (mul_neg_of_neg_of_pos hcneg (hpos x hx))
  have hdet : (temp Mk (Matrix.diagonal z)).det ≠ 0 := by
    intro hd
    obtain ⟨v, hv, hv0⟩ := (Matrix.exists_mulVec_eq_zero_iff).mpr hd
    have := hneg v hv
    rw [hv0, Matrix.dotProduct_zero] at this
    exact lt_irrefl _ this
  have hu : IsUnit (temp Mk (Matrix.diagonal z)).det := isUnit_iff_ne_zero.mpr hdet
  have hinv := tempInv_eq_inv Mk (Matrix.diagonal z) hdet
  have hPsymm : (Pk Mk (Matrix.diagonal z)).transpose = Pk Mk (Matrix.diagonal z) := by
    rw [Pk, hinv, Matrix.transpose_smul, Matrix.transpose_nonsing_inv, hsymm]
  have hPpos : ∀ x : Vec4 α, x ≠ 0 →
      0 < dotProduct x ((Pk Mk (Matrix.diagonal z)).mulVec x) := by
    intro x hx
    set y := ((temp Mk (Matrix.diagonal z))⁻¹).mulVec x with hy
    have hty : (temp Mk (Matrix.diagonal z)).mulVec y = x := by
      rw [hy, Matrix.mulVec_mulVec, Matrix.mul_nonsing_inv _ hu, Matrix.one_mulVec]
    have hy0 : y ≠ 0 := by
      intro h
      rw [h, Matrix.mulVec_zero] at hty
      exact hx hty.symm
    have hyneg := hneg y hy0
    rw [hty] at hyneg
    rw [Pk, hinv, Matrix.smul_mulVec_assoc, Matrix.dotProduct_smul, ← hy, smul_eq_mul,
      Matrix.dotProduct_comm]
    nlinarith
  refine ⟨hcneg, hmin, hcentry, hsymm, hquad, hneg, hdet, ?_, ?_, hPsymm, hPpos⟩
  · rw [hinv]; exact Matrix.mul_nonsing_inv _ hu
  · rw [hinv]; exact Matrix.nonsing_inv_mul _ hu

theorem recentering_negative_definite_witness :
    ((1 : Mat4 ℚ).transpose * 1 = 1 ∧ (![0, -1, -1, -1] : Vec4 ℚ) 0 = 0 ∧
        (∀ i, (![0, -1, -1, -1] : Vec4 ℚ) i ≤ 0) ∧ ∃ i, (![0, -1, -1, -1] : Vec4 ℚ) i < 0) ∧
      minCoeff (Matrix.diagonal (![0, -1, -1, -1] : Vec4 ℚ)) < 0 ∧
      temp 1 (Matrix.diagonal (![0, -1, -1, -1] : Vec4 ℚ)) *
        tempInv 1 (Matrix.diagonal ![0, -1, -1, -1]) = 1 := by
  have hM : (1 : Mat4 ℚ).transpose * 1 = 1 := by simp
  have h0 : (![0, -1, -1, -1] : Vec4 ℚ) 0 = 0 := rfl
  have hle : ∀ i, (![0, -1, -1, -1] : Vec4 ℚ) i ≤ 0 := by
    intro i
    fin_cases i <;> simp
  have hlt : ∃ i, (![0, -1, -1, -1] : Vec4 ℚ) i < 0 := ⟨1, by simp⟩
  have h := recentering_negative_definite 1 ![0, -1, -1, -1] hM h0 hle hlt
  exact ⟨⟨hM, h0, hle, hlt⟩, h.1, h.2.2.2.2.2.2.2.1⟩


theorem mul_diagonal_mul_apply (A B : Mat4 α) (d : Vec4 α) (i j : Fin 4) :
    (A * Matrix.diagonal d * B) i j = ∑ k, A i k * d k * B k j := by
  rw [Matrix.mul_apply]
  apply Finset.sum_congr rfl
  intro k _
  rw [Matrix.mul_diagonal]

/-- Claim C19. The posterior factorization represents `DStar` up to a multiple
of the identity: if the solver returns eigenvalues `ZTmp` and an orthogonal
eigenvector matrix `MTmp` with `DStar = MTmp diag(ZTmp) MTmp^T`, and `indx` is a
descending-order index permutation of `ZTmp`, then the returned `Mk` is
orthogonal, `ZTmp[indx[0]]` is the largest eigenvalue, and the returned pair
satisfies `Mk * Zk * Mk^T = DStar - max(ZTmp) * I`. -/
theorem posterior_factorization (env : Env α) (Xk : Vec4 α) (Mk Zk : Mat4 α)
    (Rmag Qmag : α) (p1c p1r p2c p2r normalc normalr : PointCloud α)
    (hO : (MTmp env Xk Mk Zk Rmag Qmag p1c p1r p2c p2r normalc normalr).transpose *
      MTmp env Xk Mk Zk Rmag Qmag p1c p1r p2c p2r normalc normalr = 1)
    (hD : DStar env Xk Mk Zk Rmag Qmag p1c p1r p2c p2r normalc normalr =
      MTmp env Xk Mk Zk Rmag Qmag p1c p1r p2c p2r normalc normalr *
        Matrix.diagonal (ZTmp env Xk Mk Zk Rmag Qmag p1c p1r p2c p2r normalc normalr) *
        (MTmp env Xk Mk Zk Rmag Qmag p1c p1r p2c p2r normalc normalr).transpose)
    (hS : IsDescendingOrder
      (ZTmp env Xk Mk Zk Rmag Qmag p1c p1r p2c p2r normalc normalr)
      (indx env Xk Mk Zk Rmag Qmag p1c p1r p2c p2r normalc normalr)) :
    (bingham_normal_kf env Xk Mk Zk Rmag Qmag p1c p1r p2c p2r normalc normalr).Mk.transpose *
        (bingham_normal_kf env Xk Mk Zk Rmag Qmag p1c p1r p2c p2r normalc normalr).Mk = 1 ∧
      (bingham_normal_kf env Xk Mk Zk Rmag Qmag p1c p1r p2c p2r normalc normalr).Mk *
        (bingham_normal_kf env Xk Mk Zk Rmag Qmag p1c p1r p2c p2r normalc
          normalr).Mk.transpose = 1 ∧
      (∀ k, ZTmp env Xk Mk Zk Rmag Qmag p1c p1r p2c p2r normalc normalr k ≤
        ZTmp env Xk Mk Zk Rmag Qmag p1c p1r p2c p2r normalc normalr
          (indx env Xk Mk Zk Rmag Qmag p1c p1r p2c p2r normalc normalr 0)) ∧
      (bingham_normal_kf env Xk Mk Zk Rmag Qmag p1c p1r p2c p2r normalc normalr).Mk *
          (bingham_normal_kf env Xk Mk Zk Rmag Qmag p1c p1r p2c p2r normalc normalr).Zk *
          (bingham_normal_kf env Xk Mk Zk Rmag Qmag p1c p1r p2c p2r normalc
            normalr).Mk.transpose =
        DStar env Xk Mk Zk Rmag Qmag p1c p1r p2c p2r normalc normalr -
          ZTmp env Xk Mk Zk Rmag Qmag p1c p1r p2c p2r normalc normalr
            (indx env Xk Mk Zk Rmag Qmag p1c p1r p2c p2r normalc normalr 0) •
            (1 : Mat4 α) := by
  set M := MTmp env Xk Mk Zk Rmag Qmag p1c p1r p2c p2r normalc normalr with hMdef
  set Z := ZTmp env Xk Mk Zk Rmag Qmag p1c p1r p2c p2r normalc normalr with hZdef
  set idx := indx env Xk Mk Zk Rmag Qmag p1c p1r p2c p2r normalc normalr with hidef
  have hMk : ∀ r k,
      (bingham_normal_kf env Xk Mk Zk Rmag Qmag p1c p1r p2c p2r normalc normalr).Mk r k =
        M r (idx k) := by
    intro r k
    simp only [bingham_normal_kf, reorderColumns_apply]
  have hZk : (bingham_normal_kf env Xk Mk Zk Rmag Qmag p1c p1r p2c p2r normalc normalr).Zk =
      Matrix.diagonal (fun k => Z (idx k) - Z (idx 0)) := by
    have hv : ZTmpSorted Z idx = fun k => Z (idx k) - Z (idx 0) := by
      funext k
      rw [ZTmpSorted_apply]
      split_ifs with h
      · rw [h, sub_self]
      · rfl
    show Matrix.diagonal (ZTmpSorted Z idx) = _
    rw [hv]
  have hMM : M * M.transpose = 1 := (Matrix.mul_eq_one_comm).mp hO
  have hmax : ∀ k, Z k ≤ Z (idx 0) := by
    intro k
    obtain ⟨j, hj⟩ := hS.1.2 k
    rw [← hj]
    exact hS.2 0 j (Fin.zero_le j)
  have horth : (bingham_normal_kf env Xk Mk Zk Rmag Qmag p1c p1r p2c p2r normalc
      normalr).Mk.transpose *
      (bingham_normal_kf env Xk Mk Zk Rmag Qmag p1c p1r p2c p2r normalc normalr).Mk = 1 := by
    ext k l
    rw [Matrix.mul_apply]
    simp only [Matrix.transpose_apply, hMk]
    have h := congr_fun (congr_fun hO (idx k)) (idx l)
    rw [Matrix.mul_apply] at h
    simp only [Matrix.transpose_apply] at h
    rw [h, Matrix.one_apply, Matrix.one_apply]
    by_cases hkl : k = l
    · rw [if_pos hkl, if_pos (by rw [hkl])]
    · rw [if_neg hkl, if_neg (fun e => hkl (hS.1.1 e))]
  refine ⟨horth, (Matrix.mul_eq_one_comm).mp horth, hmax, ?_⟩
  ext i j
  rw [hZk, mul_diagonal_mul_apply]
  simp only [Matrix.transpose_apply, hMk]
  rw [Function.Bijective.sum_comp hS.1 (fun l => M i l * (Z l - Z (idx 0)) * M j l)]
  rw [Matrix.sub_apply, Matrix.smul_apply, hD, mul_diagonal_mul_apply]
  have h1 := congr_fun (congr_fun hMM i) j
  rw [Matrix.mul_apply] at h1
  simp only [Matrix.transpose_apply] at h1 ⊢
  rw [← h1, smul_eq_mul, Finset.mul_sum, ← Finset.sum_sub_distrib]
  apply Finset.sum_congr rfl
  intro l _
  ring

theorem posterior_factorization_witness :
    (bingham_normal_kf sampleEnv ![1, 0, 0, 0] 1 (Matrix.diagonal ![0, -1, -1, -1]) 1 1
        [![1, 0, 0]] [![1, 0, 0]] [![0, 0, 0]] [![0, 0, 0]] [![0, 0, 1]] [![0, 0, 1]]).Mk *
      (bingham_normal_kf sampleEnv ![1, 0, 0, 0] 1 (Matrix.diagonal ![0, -1, -1, -1]) 1 1
        [![1, 0, 0]] [![1, 0, 0]] [![0, 0, 0]] [![0, 0, 0]] [![0, 0, 1]]
        [![0, 0, 1]]).Mk.transpose = 1 := by
  have hO : (MTmp sampleEnv ![1, 0, 0, 0] 1 (Matrix.diagonal ![0, -1, -1, -1]) 1 1
      [![1, 0, 0]] [![1, 0, 0]] [![0, 0, 0]] [![0, 0, 0]] [![0, 0, 1]] [![0, 0, 1]]).transpose *
      MTmp sampleEnv ![1, 0, 0, 0] 1 (Matrix.diagonal ![0, -1, -1, -1]) 1 1
      [![1, 0, 0]] [![1, 0, 0]] [![0, 0, 0]] [![0, 0, 0]] [![0, 0, 1]] [![0, 0, 1]] = 1 := by
    simp [MTmp, sampleEnv]
  have hD : DStar sampleEnv ![1, 0, 0, 0] 1 (Matrix.diagonal ![0, -1, -1, -1]) 1 1
      [![1, 0, 0]] [![1, 0, 0]] [![0, 0, 0]] [![0, 0, 0]] [![0, 0, 1]] [![0, 0, 1]] =
      MTmp sampleEnv ![1, 0, 0, 0] 1 (Matrix.diagonal ![0, -1, -1, -1]) 1 1
        [![1, 0, 0]] [![1, 0, 0]] [![0, 0, 0]] [![0, 0, 0]] [![0, 0, 1]] [![0, 0, 1]] *
      Matrix.diagonal (ZTmp sampleEnv ![1, 0, 0, 0] 1 (Matrix.diagonal ![0, -1, -1, -1]) 1 1
        [![1, 0, 0]] [![1, 0, 0]] [![0, 0, 0]] [![0, 0, 0]] [![0, 0, 1]] [![0, 0, 1]]) *
      (MTmp sampleEnv ![1, 0, 0, 0] 1 (Matrix.diagonal ![0, -1, -1, -1]) 1 1
        [![1, 0, 0]] [![1, 0, 0]] [![0, 0, 0]] [![0, 0, 0]] [![0, 0, 1]]
        [![0, 0, 1]]).transpose := by
    have h := (isEigenDecomposition_of_diagonal _ DStar_sample_offDiagonal).1
    simp only [Matrix.mul_one, Matrix.one_mul] at h
    simp only [MTmp, ZTmp, sampleEnv, Matrix.transpose_one, Matrix.mul_one, Matrix.one_mul]
    exact h
  exact (posterior_factorization sampleEnv _ _ _ _ _ _ _ _ _ _ _ hO hD
    (sortIndexesDescending_isDescendingOrder _)).2.1

end FilterTheorems

section RegistrationTheorems

variable {α τ σ : Type} [LinearOrderedField α]

theorem splitStep_foldlM_ok (t : Nat) (pc pr : PointCloud α) :
    ∀ (len start : Nat) (s : SplitState α), 1 ≤ start → s.p1Count = start / 2 →
      s.p2Count = (start - 1) / 2 → start - 1 + len ≤ t - t % 2 →
      ∃ sp, (List.range' start len).foldlM (splitStep (t / 2) (t / 2) pc pr) s =
        Except.ok sp := by
  intro len
  induction len with
  | zero =>
    intro start s _ _ _ _
    exact ⟨s, rfl⟩
  | succ len ih =>
    intro start s h1 hp1 hp2 hle
    rw [List.range'_succ, List.foldlM_cons]
    by_cases hodd : start % 2 ≠ 0
    · have hlt : ¬ s.p1Count ≥ t / 2 := by omega
      simp only [splitStep, if_pos hodd, if_neg hlt]
      exact ih (start + 1) _ (by omega) (by simp only; omega) (by simp only; omega) (by omega)
    · have hlt : ¬ s.p2Count ≥ t / 2 := by omega
      simp only [splitStep, if_neg hodd, if_neg hlt]
      exact ih (start + 1) _ (by omega) (by simp only; omega) (by simp only; omega) (by omega)

/-- The split loop never reaches `call_error`. -/
theorem splitCorrespondences_ok (t : Nat) (pc pr : PointCloud α) :
    ∃ sp, splitCorrespondences t pc pr = Except.ok sp := by
  unfold splitCorrespondences
  exact splitStep_foldlM_ok t pc pr _ 1 _ le_rfl rfl rfl (by omega)

theorem iteration_ok (env : Env α) (senv : SearchEnv α τ)
    (ptcldMoving normalMoving normalFixed : PointCloud α) (cloudTree : τ)
    (sizePtcldFixed : Nat) (i : Nat) (s : LoopState α) :
    ∃ r, iteration env senv ptcldMoving normalMoving normalFixed cloudTree sizePtcldFixed i s =
        Except.ok r ∧
      r.1.iterations = s.iterations + 1 ∧ r.1.converged = r.2 ∧
      r.1.Xregsave = s.Xregsave.set i r.1.Xreg ∧
      r.1.result = { Xreg := some r.1.Xreg, Xregsave := some r.1.Xregsave } ∧
      r.2 = convergenceTest i
        (senv.get_changes_in_transformation_estimate r.1.Xreg
          ((s.Xregsave.set i r.1.Xreg).getD (i - 1) 0)) := by
  obtain ⟨sp, hsp⟩ := splitCorrespondences_ok (windowsize * INLIER_RATIO)
    (senv.kd_search_normals ((ptcldMoving.drop (windowsize * (i - 1))).take windowsize)
      windowsize cloudTree sizePtcldFixed INLIER_RATIO s.Xreg normalMoving normalFixed).pc
    (senv.kd_search_normals ((ptcldMoving.drop (windowsize * (i - 1))).take windowsize)
      windowsize cloudTree sizePtcldFixed INLIER_RATIO s.Xreg normalMoving normalFixed).pr
  simp only [iteration, hsp]
  exact ⟨_, rfl, rfl, rfl, rfl, rfl, rfl⟩

/-- The loop follows a trajectory `T` with stop flags `B` until the first stop. -/
theorem forLoop_no_stop (body : Nat → σ → Except String (σ × Bool)) (n : Nat) :
    ∀ (T : Nat → σ) (B : Nat → Bool) (i0 : Nat),
      (∀ k, k < n → body (i0 + k) (T k) = Except.ok (T (k + 1), B (k + 1))) →
      (∀ j, 1 ≤ j → j ≤ n → B j = false) →
      forLoop body n i0 (T 0) = Except.ok (T n) := by
  induction n with
  | zero => intro T B i0 _ _; rfl
  | succ n ih =>
    intro T B i0 hbody hB
    have h0 := hbody 0 (Nat.succ_pos n)
    rw [Nat.add_zero] at h0
    simp only [forLoop, h0, hB 1 le_rfl (by omega)]
    have := ih (fun k => T (k + 1)) (fun k => B (k + 1)) (i0 + 1)
      (fun k hk => by
        have := hbody (k + 1) (by omega)
        rw [show i0 + (k + 1) = i0 + 1 + k by omega] at this
        exact this)
      (fun j hj1 hjn => hB (j + 1) (by omega) (by omega))
    simpa using this

theorem forLoop_first_stop (body : Nat → σ → Except String (σ × Bool)) (n : Nat) :
    ∀ (T : Nat → σ) (B : Nat → Bool) (i0 m : Nat),
      (∀ k, k < n → body (i0 + k) (T k) = Except.ok (T (k + 1), B (k + 1))) →
      1 ≤ m → m ≤ n → B m = true → (∀ j, 1 ≤ j → j < m → B j = false) →
      forLoop body n i0 (T 0) = Except.ok (T m) := by
  induction n with
  | zero => intro T B i0 m _ h1 h2; omega
  | succ n ih =>
    intro T B i0 m hbody hm1 hmn hBm hB
    have h0 := hbody 0 (Nat.succ_pos n)
    rw [Nat.add_zero] at h0
    by_cases hm : m = 1
    · subst hm
      simp only [forLoop, h0, hBm]
      rfl
    · simp only [forLoop, h0, hB 1 le_rfl (by omega)]
      have := ih (fun k => T (k + 1)) (fun k => B (k + 1)) (i0 + 1) (m - 1)
        (fun k hk => by
          have := hbody (k + 1) (by omega)
          rw [show i0 + (k + 1) = i0 + 1 + k by omega] at this
          exact this)
        (by omega) (by omega)
        (by simp only; rw [show m - 1 + 1 = m by omega]; exact hBm)
        (fun j hj1 hjn => hB (j + 1) (by omega) (by omega))
      simp only [show m - 1 + 1 = m by omega] at this
      simpa using this

/-- Along the trajectory, iteration `k + 1` yields the next state and leaves the
loop exactly when the convergence condition holds at `k + 1`. -/
theorem iteration_stateAfter (env : Env α) (senv : SearchEnv α τ)
    (pm pf nm nf : PointCloud α) (k : Nat) :
    iteration env senv pm nm nf (buildTree senv pf) pf.length (k + 1)
        (stateAfter env senv pm pf nm nf k) =
      Except.ok (stateAfter env senv pm pf nm nf (k + 1),
        decide (PassesAt env senv pm pf nm nf (k + 1))) ∧
    (stateAfter env senv pm pf nm nf (k + 1)).iterations =
      (stateAfter env senv pm pf nm nf k).iterations + 1 ∧
    (stateAfter env senv pm pf nm nf (k + 1)).converged =
      decide (PassesAt env senv pm pf nm nf (k + 1)) ∧
    (stateAfter env senv pm pf nm nf (k + 1)).Xregsave =
      (stateAfter env senv pm pf nm nf k).Xregsave.set (k + 1)
        (stateAfter env senv pm pf nm nf (k + 1)).Xreg := by
  obtain ⟨r, hr, hit, hconv, hsave, _, hstop⟩ :=
    iteration_ok env senv pm nm nf (buildTree senv pf) pf.length (k + 1)
      (stateAfter env senv pm pf nm nf k)
  have hT : stateAfter env senv pm pf nm nf (k + 1) = r.1 := by
    simp only [stateAfter, hr]
  have hB : r.2 = decide (PassesAt env senv pm pf nm nf (k + 1)) := by
    rw [hstop]
    simp only [PassesAt, deltaAt, hT, hsave, convergenceTest, ge_iff_le]
  refine ⟨?_, ?_, ?_, ?_⟩
  · rw [hr, hT, ← hB]
  · rw [hT, hit]
  · rw [hT, hconv, hB]
  · rw [hT]; exact hsave

theorem stateAfter_iterations (env : Env α) (senv : SearchEnv α τ)
    (pm pf nm nf : PointCloud α) (k : Nat) :
    (stateAfter env senv pm pf nm nf k).iterations = k := by
  induction k with
  | zero => rfl
  | succ k ih => rw [(iteration_stateAfter env senv pm pf nm nf k).2.1, ih]

theorem stateAfter_converged (env : Env α) (senv : SearchEnv α τ)
    (pm pf nm nf : PointCloud α) (k : Nat) :
    (stateAfter env senv pm pf nm nf k).converged = true ↔
      1 ≤ k ∧ PassesAt env senv pm pf nm nf k := by
  cases k with
  | zero => simp [stateAfter, initialState]
  | succ k =>
    rw [(iteration_stateAfter env senv pm pf nm nf k).2.2.1]
    simp

theorem stateAfter_Xregsave_length (env : Env α) (senv : SearchEnv α τ)
    (pm pf nm nf : PointCloud α) (k : Nat) :
    (stateAfter env senv pm pf nm nf k).Xregsave.length = MAX_ITERATIONS + 1 := by
  induction k with
  | zero => simp [stateAfter, initialState]
  | succ k ih => rw [(iteration_stateAfter env senv pm pf nm nf k).2.2.2, List.length_set, ih]

theorem stateAfter_Xregsave_current (env : Env α) (senv : SearchEnv α τ)
    (pm pf nm nf : PointCloud α) (k : Nat) (hk : k ≤ MAX_ITERATIONS) :
    (stateAfter env senv pm pf nm nf k).Xregsave.getD k 0 =
      (stateAfter env senv pm pf nm nf k).Xreg := by
  cases k with
  | zero => simp [stateAfter, initialState, MAX_ITERATIONS]
  | succ k =>
    rw [(iteration_stateAfter env senv pm pf nm nf k).2.2.2]
    have hlen := stateAfter_Xregsave_length env senv pm pf nm nf k
    rw [List.getD_eq_getElem _ _ (by rw [List.length_set, hlen]; omega)]
    simp

theorem stateAfter_Xregsave_previous (env : Env α) (senv : SearchEnv α τ)
    (pm pf nm nf : PointCloud α) (i : Nat) (h1 : 1 ≤ i) (hi : i ≤ MAX_ITERATIONS) :
    (stateAfter env senv pm pf nm nf i).Xregsave.getD (i - 1) 0 =
      (stateAfter env senv pm pf nm nf (i - 1)).Xreg := by
  obtain ⟨k, rfl⟩ : ∃ k, i = k + 1 := ⟨i - 1, by omega⟩
  rw [(iteration_stateAfter env senv pm pf nm nf k).2.2.2]
  simp only [Nat.add_sub_cancel]
  rw [← stateAfter_Xregsave_current env senv pm pf nm nf k (by omega)]
  simp only [List.getD_eq_getElem?_getD]
  rw [List.getElem?_set_ne (by omega)]

/-- The final state of the registration loop: the trajectory at the first
iteration within the bound whose convergence condition holds, or at the bound
when there is none. -/
theorem registrationLoop_eq (env : Env α) (senv : SearchEnv α τ)
    (pm pf nm nf : PointCloud α) :
    (∃ m, 1 ≤ m ∧ m ≤ iterationBound pm ∧ PassesAt env senv pm pf nm nf m ∧
        (∀ j, 1 ≤ j → j < m → ¬ PassesAt env senv pm pf nm nf j) ∧
        registrationLoop env senv pm pf nm nf =
          Except.ok (stateAfter env senv pm pf nm nf m)) ∨
      ((∀ j, 1 ≤ j → j ≤ iterationBound pm → ¬ PassesAt env senv pm pf nm nf j) ∧
        registrationLoop env senv pm pf nm nf =
          Except.ok (stateAfter env senv pm pf nm nf (iterationBound pm))) := by
  have hbody : ∀ k, k < iterationBound pm →
      iteration env senv pm nm nf (buildTree senv pf) pf.length (1 + k)
          (stateAfter env senv pm pf nm nf k) =
        Except.ok (stateAfter env senv pm pf nm nf (k + 1),
          (fun i => decide (PassesAt env senv pm pf nm nf i)) (k + 1)) := by
    intro k _
    rw [Nat.add_comm 1 k]
    exact (iteration_stateAfter env senv pm pf nm nf k).1
  by_cases hex : ∃ m, 1 ≤ m ∧ m ≤ iterationBound pm ∧ PassesAt env senv pm pf nm nf m
  · left
    have hmin : ∀ {j : Nat}, j < Nat.find hex →
        ¬ (1 ≤ j ∧ j ≤ iterationBound pm ∧ PassesAt env senv pm pf nm nf j) :=
      fun h => Nat.find_min hex h
    obtain ⟨h1, h2, h3⟩ := Nat.find_spec hex
    refine ⟨Nat.find hex, h1, h2, h3, ?_, ?_⟩
    · intro j hj1 hjm hp
      exact hmin hjm ⟨hj1, by omega, hp⟩
    · unfold registrationLoop
      exact forLoop_first_stop _ _ (stateAfter env senv pm pf nm nf)
        (fun i => decide (PassesAt env senv pm pf nm nf i)) 1 (Nat.find hex) hbody h1 h2
        (by simpa using h3)
        (fun j hj1 hjm => by
          have : ¬ PassesAt env senv pm pf nm nf j := fun hp => hmin hjm ⟨hj1, by omega, hp⟩
          simpa using this)
  · right
    have hno : ∀ j, 1 ≤ j → j ≤ iterationBound pm → ¬ PassesAt env senv pm pf nm nf j :=
      fun j hj1 hjn hp => hex ⟨j, hj1, hjn, hp⟩
    refine ⟨hno, ?_⟩
    unfold registrationLoop
    exact forLoop_no_stop _ _ (stateAfter env senv pm pf nm nf)
      (fun i => decide (PassesAt env senv pm pf nm nf i)) 1 hbody
      (fun j hj1 hjn => by simpa using hno j hj1 hjn)

/-- Claim C9. Hard stop: for every moving cloud of `N` columns and every
behaviour of the correspondence search, the solver and the delta, the
registration loop ends without error and `registration_est_bingham_normal`
returns; the loop has then executed at most `min(100, floor(N/20))` bodies, and
exactly that many when the convergence condition holds at no iteration within the
bound. -/
theorem registration_hard_stop (env : Env α) (senv : SearchEnv α τ)
    (ptcldMoving ptcldFixed normalMoving normalFixed : PointCloud α) :
    ∃ final,
      registrationLoop env senv ptcldMoving ptcldFixed normalMoving normalFixed =
          Except.ok final ∧
        registration_est_bingham_normal env senv ptcldMoving ptcldFixed normalMoving
          normalFixed = Except.ok final.result ∧
        final.iterations ≤ min 100 (ptcldMoving.length / 20) ∧
        ((∀ i, 1 ≤ i → i ≤ min 100 (ptcldMoving.length / 20) →
            ¬ PassesAt env senv ptcldMoving ptcldFixed normalMoving normalFixed i) →
          final.iterations = min 100 (ptcldMoving.length / 20)) := by
  have hb : iterationBound ptcldMoving = min 100 (ptcldMoving.length / 20) := rfl
  rcases registrationLoop_eq env senv ptcldMoving ptcldFixed normalMoving normalFixed with
    ⟨m, h1, h2, h3, _, hrun⟩ | ⟨_, hrun⟩
  · refine ⟨_, hrun, ?_, ?_, ?_⟩
    · simp only [registration_est_bingham_normal, hrun]
    · rw [stateAfter_iterations, ← hb]; exact h2
    · intro hnever
      exact absurd h3 (hnever m h1 (hb ▸ h2))
  · refine ⟨_, hrun, ?_, ?_, ?_⟩
    · simp only [registration_est_bingham_normal, hrun]
    · rw [stateAfter_iterations, hb]
    · intro _
      rw [stateAfter_iterations, hb]

theorem registration_hard_stop_witness :
    (∀ i, 1 ≤ i → i ≤ min 100 ((List.replicate 45 (0 : Vec3 ℚ)).length / 20) →
        ¬ PassesAt sampleEnv neverConvergingSearch (List.replicate 45 0) [] [] [] i) ∧
      ∃ final,
        registrationLoop sampleEnv neverConvergingSearch (List.replicate 45 0) [] [] [] =
            Except.ok final ∧
          final.iterations = 2 := by
  have hnever : ∀ i, 1 ≤ i → i ≤ min 100 ((List.replicate 45 (0 : Vec3 ℚ)).length / 20) →
      ¬ PassesAt sampleEnv neverConvergingSearch (List.replicate 45 0) [] [] [] i := by
    intro i _ _ h
    have h2 := h.2.1
    simp only [deltaAt, neverConvergingSearch, toleranceT] at h2
    norm_num at h2
  obtain ⟨final, hrun, _, _, hexact⟩ :=
    registration_hard_stop sampleEnv neverConvergingSearch (List.replicate 45 0) [] [] []
  exact ⟨hnever, final, hrun, by rw [hexact hnever]; simp⟩

/-- Claim C10. Convergence gating: the loop ends with "CONVERGED" written and
`i` bodies executed if and only if `i` is the first iteration within the bound
at which the convergence condition holds; that condition is `i >= 20` and
`dT <= 1e-4` and `dR <= 9e-3`, where `(dT, dR)` is the delta between the `Xreg` of
iteration `i` and the pose stored for iteration `i - 1` (column `i - 1` of
`Xregsave`, which is the `Xreg` of iteration `i - 1`).  So "CONVERGED" is never
written before iteration 20, and never for a moving cloud of fewer than 400
columns. -/
theorem convergence_gating (env : Env α) (senv : SearchEnv α τ)
    (ptcldMoving ptcldFixed normalMoving normalFixed : PointCloud α) :
    ∃ final,
      registrationLoop env senv ptcldMoving ptcldFixed normalMoving normalFixed =
          Except.ok final ∧
        (∀ i, (final.converged = true ∧ final.iterations = i) ↔
          (1 ≤ i ∧ i ≤ min 100 (ptcldMoving.length / 20) ∧
            PassesAt env senv ptcldMoving ptcldFixed normalMoving normalFixed i ∧
            ∀ j, 1 ≤ j → j < i →
              ¬ PassesAt env senv ptcldMoving ptcldFixed normalMoving normalFixed j)) ∧
        (∀ i, PassesAt env senv ptcldMoving ptcldFixed normalMoving normalFixed i ↔
          (20 ≤ i ∧
            (deltaAt env senv ptcldMoving ptcldFixed normalMoving normalFixed i).dT
              ≤ 1 / 10000 ∧
            (deltaAt env senv ptcldMoving ptcldFixed normalMoving normalFixed i).dR
              ≤ 9 / 1000)) ∧
        (∀ i, 1 ≤ i → i ≤ min 100 (ptcldMoving.length / 20) →
          deltaAt env senv ptcldMoving ptcldFixed normalMoving normalFixed i =
            senv.get_changes_in_transformation_estimate
              (stateAfter env senv ptcldMoving ptcldFixed normalMoving normalFixed i).Xreg
              (stateAfter env senv ptcldMoving ptcldFixed normalMoving normalFixed
                (i - 1)).Xreg) ∧
        (final.converged = true → 20 ≤ final.iterations) ∧
        (ptcldMoving.length < 400 → final.converged = false) := by
  have hb : iterationBound ptcldMoving = min 100 (ptcldMoving.length / 20) := rfl
  have hdelta : ∀ i, 1 ≤ i → i ≤ min 100 (ptcldMoving.length / 20) →
      deltaAt env senv ptcldMoving ptcldFixed normalMoving normalFixed i =
        senv.get_changes_in_transformation_estimate
          (stateAfter env senv ptcldMoving ptcldFixed normalMoving normalFixed i).Xreg
          (stateAfter env senv ptcldMoving ptcldFixed normalMoving normalFixed
            (i - 1)).Xreg := by
    intro i h1 hi
    simp only [deltaAt]
    rw [stateAfter_Xregsave_previous env senv _ _ _ _ i h1
      (by simp only [MAX_ITERATIONS]; omega)]
  rcases registrationLoop_eq env senv ptcldMoving ptcldFixed normalMoving normalFixed with
    ⟨m, h1, h2, h3, h4, hrun⟩ | ⟨hno, hrun⟩
  · refine ⟨_, hrun, ?_, fun i => Iff.rfl, hdelta, ?_, ?_⟩
    · intro i
      rw [stateAfter_iterations]
      constructor
      · rintro ⟨_, rfl⟩
        exact ⟨h1, hb ▸ h2, h3, h4⟩
      · rintro ⟨hi1, hi2, hi3, hi4⟩
        have hmi : m = i := by
          rcases Nat.lt_trichotomy m i with h | h | h
          · exact absurd h3 (hi4 m h1 h)
          · exact h
          · exact absurd hi3 (h4 i hi1 h)
        exact ⟨(stateAfter_converged env senv _ _ _ _ m).mpr ⟨h1, h3⟩, hmi⟩
    · intro _
      rw [stateAfter_iterations]
      exact h3.1
    · intro hlen
      have : MIN_ITERATIONS ≤ m := h3.1
      simp only [MIN_ITERATIONS] at this
      omega
  · have hnc : (stateAfter env senv ptcldMoving ptcldFixed normalMoving normalFixed
        (iterationBound ptcldMoving)).converged = false := by
      rw [Bool.eq_false_iff]
      intro hc
      obtain ⟨hc1, hc2⟩ := (stateAfter_converged env senv _ _ _ _ _).mp hc
      exact hno _ hc1 le_rfl hc2
    refine ⟨_, hrun, ?_, fun i => Iff.rfl, hdelta, ?_, ?_⟩
    · intro i
      constructor
      · rintro ⟨hc, _⟩
        rw [hnc] at hc
        exact absurd hc (by simp)
      · rintro ⟨hi1, hi2, hi3, _⟩
        exact absurd hi3 (hno i hi1 (hb ▸ hi2))
    · intro hc
      rw [hnc] at hc
      exact absurd hc (by simp)
    · intro _
      exact hnc


theorem convergence_gating_witness :
    ∃ final,
      registrationLoop sampleEnv stationarySearch (List.replicate 400 0) [] [] [] =
          Except.ok final ∧
        final.converged = true ∧ final.iterations = 20 := by
  obtain ⟨final, hrun, hiff, _, _, _, _⟩ :=
    convergence_gating sampleEnv stationarySearch (List.replicate 400 0) [] [] []
  refine ⟨final, hrun, (hiff 20).mpr
    ⟨by norm_num, by simp only [List.length_replicate]; decide, ?_, ?_⟩⟩
  · refine ⟨le_rfl, ?_, ?_⟩
    · simp only [deltaAt, stationarySearch, toleranceT]
      norm_num
    · simp only [deltaAt, stationarySearch, toleranceR]
      norm_num
  · intro j _ hj h
    have := h.1
    simp only [MIN_ITERATIONS] at this
    omega

/-- Claim C20. Zero-iteration case: when the moving cloud has fewer than 20
columns the loop bound is 0, the loop is left in the state in which it was
entered with no body executed (so no search and no filter call), and the fields
`Xreg` and `Xregsave` of the returned result are never assigned, while the local
`Xreg` and `Xregsave` are the zero 6-vector and the 101 zero columns. -/
theorem zero_iteration_case (env : Env α) (senv : SearchEnv α τ)
    (ptcldMoving ptcldFixed normalMoving normalFixed : PointCloud α)
    (h : ptcldMoving.length < 20) :
    min 100 (ptcldMoving.length / 20) = 0 ∧
      registrationLoop env senv ptcldMoving ptcldFixed normalMoving normalFixed =
        Except.ok initialState ∧
      (initialState : LoopState α).iterations = 0 ∧
      registration_est_bingham_normal env senv ptcldMoving ptcldFixed normalMoving
          normalFixed = Except.ok { Xreg := none, Xregsave := none } ∧
      (initialState : LoopState α).Xreg = 0 ∧
      (initialState : LoopState α).Xregsave = List.replicate 101 0 := by
  have hb : iterationBound ptcldMoving = 0 := by
    simp only [iterationBound, windowsize, MAX_ITERATIONS]
    omega
  have hrun : registrationLoop env senv ptcldMoving ptcldFixed normalMoving normalFixed =
      Except.ok initialState := by
    simp only [registrationLoop, hb, forLoop]
  refine ⟨by omega, hrun, rfl, ?_, rfl, rfl⟩
  simp only [registration_est_bingham_normal, hrun]
  rfl


theorem zero_iteration_case_witness :
    (List.replicate 19 (0 : Vec3 ℚ)).length < 20 ∧
      registration_est_bingham_normal sampleEnv neverConvergingSearch (List.replicate 19 0)
          [] [] [] = Except.ok { Xreg := none, Xregsave := none } :=
  ⟨by simp,
    (zero_iteration_case sampleEnv neverConvergingSearch (List.replicate 19 0) [] [] []
      (by simp)).2.2.2.1⟩

theorem stateAfter_result (env : Env α) (senv : SearchEnv α τ)
    (pm pf nm nf : PointCloud α) (k : Nat) :
    (stateAfter env senv pm pf nm nf (k + 1)).result =
      { Xreg := some (stateAfter env senv pm pf nm nf (k + 1)).Xreg
        Xregsave := some (stateAfter env senv pm pf nm nf (k + 1)).Xregsave } := by
  obtain ⟨r, hr, _, _, _, hres, _⟩ :=
    iteration_ok env senv pm nm nf (buildTree senv pf) pf.length (k + 1)
      (stateAfter env senv pm pf nm nf k)
  have hT : stateAfter env senv pm pf nm nf (k + 1) = r.1 := by
    simp only [stateAfter, hr]
  rw [hT]
  exact hres

theorem stateAfter_filterAt (env : Env α) (senv : SearchEnv α τ)
    (pm pf nm nf : PointCloud α) (k : Nat) :
    ∃ r, filterAt env senv pm pf nm nf (k + 1) = Except.ok r ∧
      (stateAfter env senv pm pf nm nf (k + 1)).Xreg = r.Xreg ∧
      (stateAfter env senv pm pf nm nf (k + 1)).Xk = r.Xk ∧
      (stateAfter env senv pm pf nm nf (k + 1)).Mk = r.Mk ∧
      (stateAfter env senv pm pf nm nf (k + 1)).Zk = r.Zk := by
  obtain ⟨sp, hsp⟩ := splitCorrespondences_ok (windowsize * INLIER_RATIO)
    (searchAt env senv pm pf nm nf (k + 1)).pc (searchAt env senv pm pf nm nf (k + 1)).pr
  have hsp' := hsp
  simp only [searchAt, Nat.add_sub_cancel] at hsp'
  have hf : filterAt env senv pm pf nm nf (k + 1) =
      Except.ok (bingham_normal_kf env (stateAfter env senv pm pf nm nf k).Xk
        (stateAfter env senv pm pf nm nf k).Mk (stateAfter env senv pm pf nm nf k).Zk
        (RmagOf (searchAt env senv pm pf nm nf (k + 1)).res1)
        (QmagOf (searchAt env senv pm pf nm nf (k + 1)).res2)
        sp.p1c sp.p1r sp.p2c sp.p2r
        (searchAt env senv pm pf nm nf (k + 1)).normalc
        (searchAt env senv pm pf nm nf (k + 1)).normalr) := by
    simp only [filterAt, hsp, Nat.add_sub_cancel]
  refine ⟨_, hf, ?_, ?_, ?_, ?_⟩
  all_goals simp only [stateAfter, iteration, Nat.add_sub_cancel, hsp', searchAt]

theorem stateAfter_Xregsave_zero (env : Env α) (senv : SearchEnv α τ)
    (pm pf nm nf : PointCloud α) (n : Nat) :
    (stateAfter env senv pm pf nm nf n).Xregsave.getD 0 0 = 0 := by
  induction n with
  | zero => simp [stateAfter, initialState, MAX_ITERATIONS]
  | succ n ih =>
    rw [(iteration_stateAfter env senv pm pf nm nf n).2.2.2]
    simp only [List.getD_eq_getElem?_getD] at ih ⊢
    rw [List.getElem?_set_ne (by omega)]
    exact ih

theorem stateAfter_Xregsave_beyond (env : Env α) (senv : SearchEnv α τ)
    (pm pf nm nf : PointCloud α) (n j : Nat) (hj : n < j) :
    (stateAfter env senv pm pf nm nf n).Xregsave.getD j 0 = 0 := by
  induction n with
  | zero =>
    simp only [stateAfter, initialState, List.getD_eq_getElem?_getD, List.getElem?_replicate]
    split_ifs <;> rfl
  | succ n ih =>
    rw [(iteration_stateAfter env senv pm pf nm nf n).2.2.2]
    have := ih (by omega)
    simp only [List.getD_eq_getElem?_getD] at this ⊢
    rw [List.getElem?_set_ne (by omega)]
    exact this

theorem stateAfter_Xregsave_kept (env : Env α) (senv : SearchEnv α τ)
    (pm pf nm nf : PointCloud α) (i n : Nat) (hi : i ≤ n) (hn : n ≤ MAX_ITERATIONS) :
    (stateAfter env senv pm pf nm nf n).Xregsave.getD i 0 =
      (stateAfter env senv pm pf nm nf i).Xreg := by
  induction n with
  | zero =>
    obtain rfl : i = 0 := by omega
    exact stateAfter_Xregsave_current env senv pm pf nm nf 0 hn
  | succ n ih =>
    rcases Nat.eq_or_lt_of_le hi with h | h
    · subst h
      exact stateAfter_Xregsave_current env senv pm pf nm nf (n + 1) hn
    · rw [(iteration_stateAfter env senv pm pf nm nf n).2.2.2]
      have := ih (by omega) (by omega)
      simp only [List.getD_eq_getElem?_getD] at this ⊢
      rw [List.getElem?_set_ne (by omega)]
      exact this

/-- The final state is the trajectory at the number of executed bodies, which is
within the bound. -/
theorem registrationLoop_final (env : Env α) (senv : SearchEnv α τ)
    (pm pf nm nf : PointCloud α) :
    ∃ k, k ≤ iterationBound pm ∧
      registrationLoop env senv pm pf nm nf =
        Except.ok (stateAfter env senv pm pf nm nf k) := by
  rcases registrationLoop_eq env senv pm pf nm nf with ⟨m, _, h2, _, _, hrun⟩ | ⟨_, hrun⟩
  · exact ⟨m, h2, hrun⟩
  · exact ⟨_, le_rfl, hrun⟩

theorem iterationBound_le (pm : PointCloud α) : iterationBound pm ≤ MAX_ITERATIONS := by
  simp only [iterationBound]
  exact Nat.min_le_left _ _

/-- Claim C12. Pose-history layout: the loop ends in the trajectory state of its
number `k <= 100` of executed bodies; if `k >= 1`, then in the returned
`Xregsave` (101 columns) column 0 is zero, column `i` (`1 <= i <= k`) is the
`Xreg` returned by the `i`-th filter call and keeps that value in the state after
every later iteration `n <= k`, every column `j` with `k < j <= 100` is zero, and
the returned `Xreg` is column `k`. -/
theorem pose_history_layout (env : Env α) (senv : SearchEnv α τ)
    (ptcldMoving ptcldFixed normalMoving normalFixed : PointCloud α) :
    ∃ final,
      registrationLoop env senv ptcldMoving ptcldFixed normalMoving normalFixed =
          Except.ok final ∧
        final.iterations ≤ 100 ∧
        final = stateAfter env senv ptcldMoving ptcldFixed normalMoving normalFixed
          final.iterations ∧
        (1 ≤ final.iterations →
          ∃ save xreg,
            registration_est_bingham_normal env senv ptcldMoving ptcldFixed normalMoving
                normalFixed = Except.ok { Xreg := some xreg, Xregsave := some save } ∧
              save.length = 101 ∧
              save.getD 0 0 = 0 ∧
              (∀ i, 1 ≤ i → i ≤ final.iterations →
                ∃ r, filterAt env senv ptcldMoving ptcldFixed normalMoving normalFixed i =
                    Except.ok r ∧
                  save.getD i 0 = r.Xreg) ∧
              (∀ i n, 1 ≤ i → i ≤ n → n ≤ final.iterations →
                ∃ r, filterAt env senv ptcldMoving ptcldFixed normalMoving normalFixed i =
                    Except.ok r ∧
                  (stateAfter env senv ptcldMoving ptcldFixed normalMoving normalFixed
                    n).Xregsave.getD i 0 = r.Xreg) ∧
              (∀ j, final.iterations < j → j ≤ 100 → save.getD j 0 = 0) ∧
              xreg = save.getD final.iterations 0) := by
  obtain ⟨k, hk, hrun⟩ :=
    registrationLoop_final env senv ptcldMoving ptcldFixed normalMoving normalFixed
  have hk100 : k ≤ MAX_ITERATIONS := le_trans hk (iterationBound_le ptcldMoving)
  have hfilter : ∀ i n, 1 ≤ i → i ≤ n → n ≤ k →
      ∃ r, filterAt env senv ptcldMoving ptcldFixed normalMoving normalFixed i =
          Except.ok r ∧
        (stateAfter env senv ptcldMoving ptcldFixed normalMoving normalFixed
          n).Xregsave.getD i 0 = r.Xreg := by
    intro i n hi1 hin hnk
    obtain ⟨j, rfl⟩ : ∃ j, i = j + 1 := ⟨i - 1, by omega⟩
    obtain ⟨r, hr, hx, _⟩ :=
      stateAfter_filterAt env senv ptcldMoving ptcldFixed normalMoving normalFixed j
    refine ⟨r, hr, ?_⟩
    rw [stateAfter_Xregsave_kept env senv _ _ _ _ (j + 1) n hin (by omega), hx]
  refine ⟨_, hrun, ?_, ?_, ?_⟩
  · rw [stateAfter_iterations]; exact hk100
  · rw [stateAfter_iterations]
  · rw [stateAfter_iterations]
    intro hk1
    obtain ⟨j, rfl⟩ : ∃ j, k = j + 1 := ⟨k - 1, by omega⟩
    refine ⟨(stateAfter env senv ptcldMoving ptcldFixed normalMoving normalFixed
        (j + 1)).Xregsave,
      (stateAfter env senv ptcldMoving ptcldFixed normalMoving normalFixed (j + 1)).Xreg,
      ?_, ?_, ?_, ?_, ?_, ?_, ?_⟩
    · simp only [registration_est_bingham_normal, hrun, stateAfter_result]
    · exact stateAfter_Xregsave_length env senv _ _ _ _ _
    · exact stateAfter_Xregsave_zero env senv _ _ _ _ _
    · intro i hi1 hik
      exact hfilter i (j + 1) hi1 hik le_rfl
    · exact hfilter
    · intro i hi _
      exact stateAfter_Xregsave_beyond env senv _ _ _ _ _ i hi
    · exact (stateAfter_Xregsave_current env senv _ _ _ _ _ hk100).symm

theorem neverConverging_not_passes (pm pf nm nf : PointCloud ℚ) (i : Nat) :
    ¬ PassesAt sampleEnv neverConvergingSearch pm pf nm nf i := by
  intro h
  have h2 := h.2.1
  simp only [deltaAt, neverConvergingSearch, toleranceT] at h2
  norm_num at h2

/-- The run on 45 moving columns with the never-converging search ends in the
state after two iterations. -/
theorem sample_run_final :
    registrationLoop sampleEnv neverConvergingSearch (List.replicate 45 0) [] [] [] =
      Except.ok (stateAfter sampleEnv neverConvergingSearch (List.replicate 45 0) [] [] [] 2) := by
  have hb : iterationBound (List.replicate 45 (0 : Vec3 ℚ)) = 2 := by
    simp only [iterationBound, List.length_replicate, windowsize, MAX_ITERATIONS]
    decide
  rcases registrationLoop_eq sampleEnv neverConvergingSearch (List.replicate 45 0) [] [] []
    with ⟨m, _, _, h3, _, _⟩ | ⟨_, hrun⟩
  · exact absurd h3 (neverConverging_not_passes _ _ _ _ m)
  · rw [hb] at hrun
    exact hrun

theorem pose_history_layout_witness :
    ∃ save xreg,
      registration_est_bingham_normal sampleEnv neverConvergingSearch (List.replicate 45 0)
          [] [] [] = Except.ok { Xreg := some xreg, Xregsave := some save } ∧
        save.length = 101 ∧ save.getD 0 0 = 0 ∧ save.getD 3 0 = 0 ∧ xreg = save.getD 2 0 := by
  obtain ⟨final, hrun, _, _, hlayout⟩ :=
    pose_history_layout sampleEnv neverConvergingSearch (List.replicate 45 0) [] [] []
  have h2 : final.iterations = 2 := by
    rw [sample_run_final] at hrun
    rw [← Except.ok.inj hrun, stateAfter_iterations]
  obtain ⟨save, xreg, hres, hlen, h0, _, _, hz, hx⟩ := hlayout (by omega)
  exact ⟨save, xreg, hres, hlen, h0, hz 3 (by omega) (by omega), by rw [hx, h2]⟩

theorem set_map_range {β : Type} (L i : Nat) (f g : Nat → β) (v : β) (hi : g i = v)
    (hne : ∀ n, n ≠ i → g n = f n) :
    ((List.range L).map f).set i v = (List.range L).map g := by
  apply List.ext_getElem
  · simp
  · intro n h1 h2
    rw [List.getElem_set]
    simp only [List.getElem_map, List.getElem_range]
    split_ifs with h
    · rw [← h, hi]
    · exact (hne n (fun e => h e.symm)).symm

theorem map_range_congr {β : Type} (L : Nat) (f g : Nat → β) (h : ∀ n, f n = g n) :
    (List.range L).map f = (List.range L).map g := by
  rw [funext h]

theorem splitStep_splitStateAfter (t : Nat) (pc pr : PointCloud α) (j : Nat)
    (hj : j + 1 ≤ t - t % 2) :
    splitStep (t / 2) (t / 2) pc pr (splitStateAfter t pc pr j) (j + 1) =
      Except.ok (splitStateAfter t pc pr (j + 1)) := by
  by_cases hodd : (j + 1) % 2 ≠ 0
  · have hlt : ¬ (j + 1) / 2 ≥ t / 2 := by omega
    simp only [splitStep, splitStateAfter, if_pos hodd, if_neg hlt, Nat.add_sub_cancel]
    congr 2
    · apply set_map_range
      · rw [if_pos (by omega)]
        congr 1
        omega
      · intro n hn
        by_cases h : n < (j + 1) / 2
        · rw [if_pos h, if_pos (by omega)]
        · rw [if_neg h, if_neg (by omega)]
    · apply map_range_congr
      intro n
      by_cases h : n < j / 2
      · rw [if_pos h, if_pos (by omega)]
      · rw [if_neg h, if_neg (by omega)]
    · apply set_map_range
      · rw [if_pos (by omega)]
        congr 1
        omega
      · intro n hn
        by_cases h : n < (j + 1) / 2
        · rw [if_pos h, if_pos (by omega)]
        · rw [if_neg h, if_neg (by omega)]
    · apply map_range_congr
      intro n
      by_cases h : n < j / 2
      · rw [if_pos h, if_pos (by omega)]
      · rw [if_neg h, if_neg (by omega)]
    · omega
    · omega
  · have hlt : ¬ j / 2 ≥ t / 2 := by omega
    simp only [splitStep, splitStateAfter, if_neg hodd, if_neg hlt, Nat.add_sub_cancel]
    congr 2
    · apply map_range_congr
      intro n
      by_cases h : n < (j + 1) / 2
      · rw [if_pos h, if_pos (by omega)]
      · rw [if_neg h, if_neg (by omega)]
    · apply set_map_range
      · rw [if_pos (by omega)]
        congr 1
        omega
      · intro n hn
        by_cases h : n < j / 2
        · rw [if_pos h, if_pos (by omega)]
        · rw [if_neg h, if_neg (by omega)]
    · apply map_range_congr
      intro n
      by_cases h : n < (j + 1) / 2
      · rw [if_pos h, if_pos (by omega)]
      · rw [if_neg h, if_neg (by omega)]
    · apply set_map_range
      · rw [if_pos (by omega)]
        congr 1
        omega
      · intro n hn
        by_cases h : n < j / 2
        · rw [if_pos h, if_pos (by omega)]
        · rw [if_neg h, if_neg (by omega)]
    · omega
    · omega

theorem splitStep_foldlM_splitStateAfter (t : Nat) (pc pr : PointCloud α) :
    ∀ (len j : Nat), j + len ≤ t - t % 2 →
      (List.range' (j + 1) len).foldlM (splitStep (t / 2) (t / 2) pc pr)
          (splitStateAfter t pc pr j) =
        Except.ok (splitStateAfter t pc pr (j + len)) := by
  intro len
  induction len with
  | zero => intro j _; rfl
  | succ len ih =>
    intro j hj
    rw [List.range'_succ, List.foldlM_cons, splitStep_splitStateAfter t pc pr j (by omega)]
    have := ih (j + 1) (by omega)
    rw [show j + 1 + len = j + (len + 1) by omega] at this
    exact this

/-- Claim C16. Odd/even split: for every truncated count `t` the split loop
never reaches `call_error`; it ends with `p1c`/`p1r` holding the columns of
`pc`/`pr` at the 0-based indices `0, 2, 4, ...` and `p2c`/`p2r` those at
`1, 3, 5, ...`, each batch with exactly `floor(t/2)` columns in the original
order; every index used is below `t`, and when `t` is odd the last column,
index `t - 1`, is used by neither batch. -/
theorem split_odd_even (t : Nat) (pc pr : PointCloud α) :
    splitCorrespondences t pc pr =
        Except.ok
          { p1c := (List.range (t / 2)).map fun k => pc.getD (2 * k) 0
            p2c := (List.range (t / 2)).map fun k => pc.getD (2 * k + 1) 0
            p1r := (List.range (t / 2)).map fun k => pr.getD (2 * k) 0
            p2r := (List.range (t / 2)).map fun k => pr.getD (2 * k + 1) 0
            p1Count := t / 2
            p2Count := t / 2 } ∧
      (∀ e, splitCorrespondences t pc pr ≠ Except.error e) ∧
      (∀ k, k < t / 2 → 2 * k + 1 < t) ∧
      (t % 2 = 1 → ∀ k, k < t / 2 → 2 * k ≠ t - 1 ∧ 2 * k + 1 ≠ t - 1) ∧
      (∀ n (h : n < pc.length), pc.getD n 0 = pc.get ⟨n, h⟩) ∧
      (∀ n (h : n < pr.length), pr.getD n 0 = pr.get ⟨n, h⟩) := by
  have hrun : splitCorrespondences t pc pr =
      Except.ok
        { p1c := (List.range (t / 2)).map fun k => pc.getD (2 * k) 0
          p2c := (List.range (t / 2)).map fun k => pc.getD (2 * k + 1) 0
          p1r := (List.range (t / 2)).map fun k => pr.getD (2 * k) 0
          p2r := (List.range (t / 2)).map fun k => pr.getD (2 * k + 1) 0
          p1Count := t / 2
          p2Count := t / 2 } := by
    have h0 : splitStateAfter t pc pr 0 =
        { p1c := List.replicate (t / 2) 0
          p2c := List.replicate (t / 2) 0
          p1r := List.replicate (t / 2) 0
          p2r := List.replicate (t / 2) 0
          p1Count := 0
          p2Count := 0 } := by
      simp only [splitStateAfter]
      congr 1 <;>
        first
        | rfl
        | (apply List.ext_getElem
           · simp
           · intro n h1 h2
             simp)
    have hend : splitStateAfter t pc pr (t - t % 2) =
        { p1c := (List.range (t / 2)).map fun k => pc.getD (2 * k) 0
          p2c := (List.range (t / 2)).map fun k => pc.getD (2 * k + 1) 0
          p1r := (List.range (t / 2)).map fun k => pr.getD (2 * k) 0
          p2r := (List.range (t / 2)).map fun k => pr.getD (2 * k + 1) 0
          p1Count := t / 2
          p2Count := t / 2 } := by
      simp only [splitStateAfter]
      congr 1 <;>
        first
        | omega
        | (apply List.map_congr_left
           intro k hk
           rw [List.mem_range] at hk
           rw [if_pos (by omega)])
    have h := splitStep_foldlM_splitStateAfter t pc pr (t - t % 2) 0 (by omega)
    rw [Nat.zero_add, Nat.zero_add, h0, hend] at h
    exact h
  refine ⟨hrun, ?_, ?_, ?_, ?_, ?_⟩
  · intro e he
    rw [hrun] at he
    cases he
  · intro k hk
    omega
  · intro ht k hk
    omega
  · intro n h
    rw [List.getD_eq_getElem _ _ h]
    rfl
  · intro n h
    rw [List.getD_eq_getElem _ _ h]
    rfl

/-- The split of five correspondences: columns 0 and 2 go to the first batch,
columns 1 and 3 to the second, column 4 is dropped. -/
theorem split_odd_even_witness :
    splitCorrespondences 5
        ([![0, 0, 0], ![1, 1, 1], ![2, 2, 2], ![3, 3, 3], ![4, 4, 4]] : PointCloud ℚ)
        [![0, 0, 0], ![10, 10, 10], ![20, 20, 20], ![30, 30, 30], ![40, 40, 40]] =
      Except.ok
        { p1c := [![0, 0, 0], ![2, 2, 2]]
          p2c := [![1, 1, 1], ![3, 3, 3]]
          p1r := [![0, 0, 0], ![20, 20, 20]]
          p2r := [![10, 10, 10], ![30, 30, 30]]
          p1Count := 2
          p2Count := 2 } := by
  rw [(split_odd_even 5 _ _).1]
  rfl

end RegistrationTheorems

end Bingham
